import Mathlib

/-!
Verification of the mailvelope keyring-management and synchronization
subsystem (src/modules/pgpModel.js, KeyringLocal.js, KeyStoreLocal.js,
key.js) against its natural-language specification.

The JavaScript source is shallowly embedded: keys, key stores and change
logs become Lean structures and lists, the mutating operations become
pure state-passing functions, and external collaborators (the OpenPGP
engine's parsing/crypto primitives, persistent storage) are modelled at
the boundary where the subsystem consumes their results.
-/

set_option autoImplicit false

namespace Mailvelope

/-- Modelled from the spec: the change-log entry type constants INSERT,
UPDATE, DELETE exported by the keyringSync module (the module itself is
not part of the sources; spec section 3 defines
`type ∈ {INSERT, UPDATE, DELETE}` as three distinct entry kinds). -/
inductive ChangeType where
  | INSERT
  | UPDATE
  | DELETE
deriving DecidableEq

/-- A change-log entry `{type, time}` (spec section 3, ChangeLogEntry). -/
structure LogEntry where
  type : ChangeType
  time : Nat
deriving DecidableEq

/-- Shallow embedding of an OpenPGP key object as used by the subsystem:
fingerprint and key id of the primary packet, subkey ids, the
certification packets (opaque, identified by strings), privateness,
creation time, capability flags used by primary-key validation, and the
armored encodings of the public and private forms. -/
structure PKey where
  fpr : String
  keyId : String
  subKeyIds : List String := []
  certs : List String := []
  isPriv : Bool := false
  created : Nat := 0
  canSign : Bool := true
  canEncrypt : Bool := true
  expired : Bool := false
  armoredPub : String := ""
  armoredPriv : String := ""
deriving DecidableEq

instance : Inhabited PKey := ⟨{fpr := "", keyId := ""}⟩

/-- `key.toPublic()`: the same key in public form. -/
def PKey.toPublic (k : PKey) : PKey := {k with isPriv := false}

/-- `key.armor()`: armored encoding of the key in its current form. -/
def PKey.armor (k : PKey) : String :=
  if k.isPriv then k.armoredPriv else k.armoredPub

/-- A KeyStore's state: the public and the private key collection
(KeyStoreLocal / KeyStoreBase). -/
structure KeyStore where
  publicKeys : List PKey := []
  privateKeys : List PKey := []
deriving DecidableEq

/-- Assignment `m[k] = v` on a JavaScript object viewed as an ordered
association list: overwrite in place if the property exists, append
otherwise. -/
def setKV {κ α : Type} [DecidableEq κ] : List (κ × α) → κ → α → List (κ × α)
  | [], k, v => [(k, v)]
  | (k', v') :: rest, k, v =>
    if k' = k then (k, v) :: rest else (k', v') :: setKV rest k v

theorem lookup_cons_eq {κ α : Type} [BEq κ] [LawfulBEq κ] (l : List (κ × α)) (k : κ) (v : α) :
    ((k, v) :: l).lookup k = some v := by
  simp [List.lookup]

theorem lookup_cons_ne {κ α : Type} [BEq κ] [LawfulBEq κ] (l : List (κ × α)) (a k : κ) (v : α)
    (h : k ≠ a) : ((a, v) :: l).lookup k = l.lookup k := by
  simp only [List.lookup]
  rw [show (k == a) = false from beq_eq_false_iff_ne.mpr h]

theorem lookup_setKV_same {κ α : Type} [DecidableEq κ] [BEq κ] [LawfulBEq κ] (m : List (κ × α)) (k : κ) (v : α) :
    (setKV m k v).lookup k = some v := by
  induction m with
  | nil => simp [setKV, List.lookup]
  | cons p rest ih =>
    obtain ⟨a, b⟩ := p
    by_cases h : a = k
    · subst h
      simp [setKV, lookup_cons_eq]
    · rw [show setKV ((a, b) :: rest) k v = (a, b) :: setKV rest k v from by
        simp [setKV, h]]
      rw [lookup_cons_ne _ _ _ _ (Ne.symm h)]
      exact ih

theorem lookup_setKV_other {κ α : Type} [DecidableEq κ] [BEq κ] [LawfulBEq κ] (m : List (κ × α)) (k k' : κ) (v : α)
    (hne : k' ≠ k) : (setKV m k v).lookup k' = m.lookup k' := by
  induction m with
  | nil => simp [setKV, List.lookup, beq_eq_false_iff_ne.mpr hne]
  | cons p rest ih =>
    obtain ⟨a, b⟩ := p
    by_cases h : a = k
    · subst h
      rw [show setKV ((a, b) :: rest) a v = (a, v) :: rest from by simp [setKV]]
      rw [lookup_cons_ne _ _ _ _ hne, lookup_cons_ne _ _ _ _ hne]
    · rw [show setKV ((a, b) :: rest) k v = (a, b) :: setKV rest k v from by
        simp [setKV, h]]
      by_cases h2 : k' = a
      · subst h2
        rw [lookup_cons_eq, lookup_cons_eq]
      · rw [lookup_cons_ne _ _ _ _ h2, lookup_cons_ne _ _ _ _ h2]
        exact ih

/-- The key sets of an outgoing sync payload (spec section 3,
SyncPayload): `insertedKeys` maps a fingerprint to armored key plus
time, `deletedKeys` maps a fingerprint to a time. -/
structure InsEntry where
  armored : String
  time : Nat
deriving DecidableEq

structure DelEntry where
  time : Nat
deriving DecidableEq

structure SyncData where
  insertedKeys : List (String × InsEntry) := []
  deletedKeys : List (String × DelEntry) := []
deriving DecidableEq

/-- `convertChangeLog(key, changeLog, syncData)` from pgpModel.js: place
the key into `insertedKeys` if its change-log entry has type INSERT;
a DELETE entry for a live key and any other entry type are only logged
and produce no payload entry; a key without an entry is skipped. -/
def convertChangeLog (key : PKey) (changeLog : List (String × LogEntry))
    (syncData : SyncData) : SyncData :=
  match changeLog.lookup key.fpr with
  | none => syncData
  | some logEntry =>
    if logEntry.type = ChangeType.INSERT then
      {syncData with insertedKeys := setKV syncData.insertedKeys key.fpr ⟨key.armor, logEntry.time⟩}
    else
      syncData

/-- `encryptSyncMessage(key, changeLog, keyringId)` from pgpModel.js,
up to the point where the payload object is JSON-serialized and handed
to the external OpenPGP engine for encrypt-and-sign: builds `syncData`
by converting every public key, then every private key in public form,
and finally adding a `deletedKeys` entry for every DELETE change-log
entry. -/
def encryptSyncMessage (keyStore : KeyStore)
    (changeLog : List (String × LogEntry)) : SyncData :=
  let s0 : SyncData := {}
  let s1 := keyStore.publicKeys.foldl
    (fun sd pubKey => convertChangeLog pubKey changeLog sd) s0
  let s2 := keyStore.privateKeys.foldl
    (fun sd privKey => convertChangeLog privKey.toPublic changeLog sd) s1
  changeLog.foldl
    (fun sd p =>
      if p.2.type = ChangeType.DELETE then
        {sd with deletedKeys := setKV sd.deletedKeys p.1 ⟨p.2.time⟩}
      else sd)
    s2

/-- Association-list membership with nodup keys determines lookup. -/
theorem lookup_eq_some_of_mem_nodup {κ α : Type} [DecidableEq κ] [BEq κ] [LawfulBEq κ] (m : List (κ × α)) (k : κ) (v : α)
    (hnd : (m.map Prod.fst).Nodup) (hmem : (k, v) ∈ m) : m.lookup k = some v := by
  induction m with
  | nil => cases hmem
  | cons p rest ih =>
    obtain ⟨a, b⟩ := p
    simp only [List.map_cons, List.nodup_cons] at hnd
    rcases List.mem_cons.mp hmem with h | h
    · cases h
      exact lookup_cons_eq rest k v
    · have hka : k ≠ a := by
        intro he
        subst he
        exact hnd.1 (List.mem_map.mpr ⟨(k, v), h, rfl⟩)
      rw [lookup_cons_ne _ _ _ _ hka]
      exact ih hnd.2 h

theorem mem_of_lookup_eq_some {κ α : Type} [DecidableEq κ] [BEq κ] [LawfulBEq κ] (m : List (κ × α)) (k : κ) (v : α)
    (h : m.lookup k = some v) : (k, v) ∈ m := by
  induction m with
  | nil => simp [List.lookup] at h
  | cons p rest ih =>
    obtain ⟨a, b⟩ := p
    by_cases hka : k = a
    · subst hka
      rw [lookup_cons_eq] at h
      cases h
      exact List.mem_cons_self _ _
    · rw [lookup_cons_ne _ _ _ _ hka] at h
      exact List.mem_cons_of_mem _ (ih h)

/-- The fold of `convertChangeLog` over a list of keys, as performed by
`encryptSyncMessage` over the public keys and then the private keys in
public form. -/
def foldConv (L : List PKey) (changeLog : List (String × LogEntry)) (sd : SyncData) : SyncData :=
  L.foldl (fun sd key => convertChangeLog key changeLog sd) sd

/-- The final loop of `encryptSyncMessage`: one `deletedKeys` entry per
DELETE change-log entry. -/
def delFold (changeLog : List (String × LogEntry)) (sd : SyncData) : SyncData :=
  changeLog.foldl
    (fun sd p =>
      if p.2.type = ChangeType.DELETE then
        {sd with deletedKeys := setKV sd.deletedKeys p.1 ⟨p.2.time⟩}
      else sd)
    sd

theorem encryptSyncMessage_eq (ks : KeyStore) (changeLog : List (String × LogEntry)) :
    encryptSyncMessage ks changeLog =
      delFold changeLog (foldConv (ks.publicKeys ++ ks.privateKeys.map PKey.toPublic) changeLog {}) := by
  simp [encryptSyncMessage, foldConv, delFold, List.foldl_append, List.foldl_map]

theorem convertChangeLog_deletedKeys (key : PKey) (changeLog : List (String × LogEntry))
    (sd : SyncData) : (convertChangeLog key changeLog sd).deletedKeys = sd.deletedKeys := by
  rcases hh : changeLog.lookup key.fpr with _ | e
  · simp [convertChangeLog, hh]
  · by_cases ht : e.type = ChangeType.INSERT <;> simp [convertChangeLog, hh, ht]

theorem foldConv_deletedKeys (L : List PKey) (changeLog : List (String × LogEntry))
    (sd : SyncData) : (foldConv L changeLog sd).deletedKeys = sd.deletedKeys := by
  induction L generalizing sd with
  | nil => rfl
  | cons k rest ih =>
    rw [foldConv, List.foldl_cons, ← foldConv]
    rw [ih, convertChangeLog_deletedKeys]

theorem convertChangeLog_ins_preserve (key : PKey) (changeLog : List (String × LogEntry))
    (sd : SyncData) (f : String)
    (h : key.fpr = f → ∀ e, changeLog.lookup f = some e → e.type ≠ ChangeType.INSERT) :
    (convertChangeLog key changeLog sd).insertedKeys.lookup f = sd.insertedKeys.lookup f := by
  rcases hh : changeLog.lookup key.fpr with _ | e
  · simp [convertChangeLog, hh]
  · by_cases hf : key.fpr = f
    · have ht : e.type ≠ ChangeType.INSERT := h hf e (hf ▸ hh)
      simp [convertChangeLog, hh, ht]
    · by_cases ht : e.type = ChangeType.INSERT
      · simp only [convertChangeLog, hh]
        rw [if_pos ht]
        exact lookup_setKV_other _ _ _ _ (Ne.symm hf)
      · simp [convertChangeLog, hh, ht]

theorem foldConv_ins_preserve (L : List PKey) (changeLog : List (String × LogEntry))
    (sd : SyncData) (f : String)
    (h : ∀ k ∈ L, k.fpr = f → ∀ e, changeLog.lookup f = some e → e.type ≠ ChangeType.INSERT) :
    (foldConv L changeLog sd).insertedKeys.lookup f = sd.insertedKeys.lookup f := by
  induction L generalizing sd with
  | nil => rfl
  | cons k rest ih =>
    rw [foldConv, List.foldl_cons, ← foldConv]
    rw [ih _ (fun k' hk' => h k' (List.mem_cons_of_mem _ hk'))]
    exact convertChangeLog_ins_preserve k changeLog sd f (h k (List.mem_cons_self _ _))

theorem foldConv_ins_preserve_ne (L : List PKey) (changeLog : List (String × LogEntry))
    (sd : SyncData) (f : String) (h : ∀ k ∈ L, k.fpr ≠ f) :
    (foldConv L changeLog sd).insertedKeys.lookup f = sd.insertedKeys.lookup f :=
  foldConv_ins_preserve L changeLog sd f (fun k hk hf => absurd hf (h k hk))

theorem foldConv_ins_of_mem (L : List PKey) (changeLog : List (String × LogEntry))
    (sd : SyncData) (k : PKey) (t : Nat)
    (hnd : (L.map PKey.fpr).Nodup) (hk : k ∈ L)
    (he : changeLog.lookup k.fpr = some ⟨ChangeType.INSERT, t⟩) :
    (foldConv L changeLog sd).insertedKeys.lookup k.fpr = some ⟨k.armor, t⟩ := by
  induction L generalizing sd with
  | nil => cases hk
  | cons x rest ih =>
    simp only [List.map_cons, List.nodup_cons] at hnd
    rw [foldConv, List.foldl_cons, ← foldConv]
    rcases List.mem_cons.mp hk with hx | hx
    · subst hx
      rw [foldConv_ins_preserve_ne rest changeLog _ k.fpr
        (fun k' hk' hfe => hnd.1 (hfe ▸ List.mem_map.mpr ⟨k', hk', rfl⟩))]
      simp only [convertChangeLog, he]
      rw [if_pos trivial]
      exact lookup_setKV_same _ _ _
    · exact ih _ hnd.2 hx

theorem delFold_insertedKeys (changeLog : List (String × LogEntry)) (sd : SyncData) :
    (delFold changeLog sd).insertedKeys = sd.insertedKeys := by
  induction changeLog generalizing sd with
  | nil => rfl
  | cons p rest ih =>
    rw [delFold, List.foldl_cons, ← delFold]
    rw [ih]
    by_cases h : p.2.type = ChangeType.DELETE <;> simp [h]

theorem delFold_del_preserve (changeLog : List (String × LogEntry)) (sd : SyncData)
    (f : String) (h : ∀ e, (f, e) ∈ changeLog → e.type ≠ ChangeType.DELETE) :
    (delFold changeLog sd).deletedKeys.lookup f = sd.deletedKeys.lookup f := by
  induction changeLog generalizing sd with
  | nil => rfl
  | cons p rest ih =>
    obtain ⟨a, e⟩ := p
    rw [delFold, List.foldl_cons, ← delFold]
    rw [ih _ (fun e' he' => h e' (List.mem_cons_of_mem _ he'))]
    by_cases ht : e.type = ChangeType.DELETE
    · have haf : a ≠ f := by
        intro hae
        exact h e (hae ▸ List.mem_cons_self _ _) ht
      rw [if_pos ht]
      exact lookup_setKV_other _ _ _ _ (Ne.symm haf)
    · rw [if_neg ht]

theorem delFold_del_of_mem (changeLog : List (String × LogEntry)) (sd : SyncData)
    (f : String) (e : LogEntry)
    (hnd : (changeLog.map Prod.fst).Nodup) (hmem : (f, e) ∈ changeLog)
    (ht : e.type = ChangeType.DELETE) :
    (delFold changeLog sd).deletedKeys.lookup f = some ⟨e.time⟩ := by
  induction changeLog generalizing sd with
  | nil => cases hmem
  | cons p rest ih =>
    obtain ⟨a, e'⟩ := p
    simp only [List.map_cons, List.nodup_cons] at hnd
    rw [delFold, List.foldl_cons, ← delFold]
    rcases List.mem_cons.mp hmem with hx | hx
    · cases hx
      rw [delFold_del_preserve rest _ f
        (fun e2 he2 _ => hnd.1 (List.mem_map.mpr ⟨(f, e2), he2, rfl⟩))]
      rw [if_pos ht]
      exact lookup_setKV_same _ _ _
    · by_cases ht' : e'.type = ChangeType.DELETE
      · rw [if_pos ht']
        exact ih _ hnd.2 hx
      · rw [if_neg ht']
        exact ih _ hnd.2 hx

theorem foldConv_append (A B : List PKey) (changeLog : List (String × LogEntry))
    (sd : SyncData) :
    foldConv (A ++ B) changeLog sd = foldConv B changeLog (foldConv A changeLog sd) := by
  simp [foldConv, List.foldl_append]

/-- C1 (amended): `encryptSyncMessage` builds the outgoing payload as
follows: for every key currently in the KeyStore (public keys, and
private keys in their public form), if the change log holds an entry of
type INSERT for its fingerprint, the key's armored public form (never
the private form) is placed into `insertedKeys` together with the
entry's recorded timestamp; for every change-log entry of type DELETE
(in particular one with no corresponding live key), the fingerprint is
placed into `deletedKeys` with its timestamp; keys present in the
KeyStore whose fingerprint has no change-log entry, or an UPDATE entry,
appear in neither map.  (The original claim also placed keys with
UPDATE entries into `insertedKeys`; the code converts only INSERT
entries and drops UPDATE entries from the payload.)  Stated for well
formed states: fingerprints are unique across the store's collections,
change-log keys are unique, and the public collection holds keys in
public form. -/
theorem C1_payload_construction (ks : KeyStore) (changeLog : List (String × LogEntry))
    (hpub : ∀ k ∈ ks.publicKeys, k.isPriv = false)
    (hnd : ((ks.publicKeys ++ ks.privateKeys).map PKey.fpr).Nodup)
    (hlog : (changeLog.map Prod.fst).Nodup) :
    (∀ k ∈ ks.publicKeys, ∀ t, changeLog.lookup k.fpr = some ⟨ChangeType.INSERT, t⟩ →
      (encryptSyncMessage ks changeLog).insertedKeys.lookup k.fpr = some ⟨k.armoredPub, t⟩) ∧
    (∀ k ∈ ks.privateKeys, ∀ t, changeLog.lookup k.fpr = some ⟨ChangeType.INSERT, t⟩ →
      (encryptSyncMessage ks changeLog).insertedKeys.lookup k.fpr = some ⟨k.armoredPub, t⟩) ∧
    (∀ f e, (f, e) ∈ changeLog → e.type = ChangeType.DELETE →
      (encryptSyncMessage ks changeLog).deletedKeys.lookup f = some ⟨e.time⟩) ∧
    (∀ f, changeLog.lookup f = none →
      (encryptSyncMessage ks changeLog).insertedKeys.lookup f = none ∧
      (encryptSyncMessage ks changeLog).deletedKeys.lookup f = none) ∧
    (∀ f t, changeLog.lookup f = some ⟨ChangeType.UPDATE, t⟩ →
      (encryptSyncMessage ks changeLog).insertedKeys.lookup f = none ∧
      (encryptSyncMessage ks changeLog).deletedKeys.lookup f = none) := by
  have hmapfpr : (ks.privateKeys.map PKey.toPublic).map PKey.fpr = ks.privateKeys.map PKey.fpr := by
    rw [List.map_map]
    rfl
  have hndM : (((ks.publicKeys ++ ks.privateKeys.map PKey.toPublic)).map PKey.fpr).Nodup := by
    rw [List.map_append, hmapfpr]
    rw [List.map_append] at hnd
    exact hnd
  refine ⟨?_, ?_, ?_, ?_, ?_⟩
  · intro k hk t he
    rw [encryptSyncMessage_eq, delFold_insertedKeys]
    have harm : k.armor = k.armoredPub := by
      unfold PKey.armor
      rw [hpub k hk]
      simp
    have := foldConv_ins_of_mem (ks.publicKeys ++ ks.privateKeys.map PKey.toPublic)
      changeLog {} k t hndM (List.mem_append_left _ hk) he
    rw [harm] at this
    exact this
  · intro k hk t he
    rw [encryptSyncMessage_eq, delFold_insertedKeys]
    have hkM : k.toPublic ∈ ks.publicKeys ++ ks.privateKeys.map PKey.toPublic :=
      List.mem_append_right _ (List.mem_map.mpr ⟨k, hk, rfl⟩)
    exact foldConv_ins_of_mem (ks.publicKeys ++ ks.privateKeys.map PKey.toPublic)
      changeLog {} k.toPublic t hndM hkM he
  · intro f e hmem ht
    rw [encryptSyncMessage_eq]
    exact delFold_del_of_mem changeLog _ f e hlog hmem ht
  · intro f hnone
    constructor
    · rw [encryptSyncMessage_eq, delFold_insertedKeys]
      rw [foldConv_ins_preserve _ changeLog _ f
        (fun k hk hf e he => by rw [hnone] at he; cases he)]
      rfl
    · rw [encryptSyncMessage_eq]
      rw [delFold_del_preserve changeLog _ f
        (fun e he _ => by
          have := lookup_eq_some_of_mem_nodup changeLog f e hlog he
          rw [hnone] at this
          cases this)]
      rw [foldConv_deletedKeys]
      rfl
  · intro f t hupd
    constructor
    · rw [encryptSyncMessage_eq, delFold_insertedKeys]
      rw [foldConv_ins_preserve _ changeLog _ f
        (fun k hk hf e he => by
          rw [hupd] at he
          cases he
          simp)]
      rfl
    · rw [encryptSyncMessage_eq]
      rw [delFold_del_preserve changeLog _ f
        (fun e he => by
          have := lookup_eq_some_of_mem_nodup changeLog f e hlog he
          rw [hupd] at this
          cases this
          simp)]
      rw [foldConv_deletedKeys]
      rfl

/-- Concrete keyring state used to exercise the payload construction. -/
def kA : PKey := {fpr := "aa", keyId := "ka", armoredPub := "PUB-A"}

def kB : PKey := {fpr := "bb", keyId := "kb", isPriv := true, armoredPub := "PUB-B", armoredPriv := "PRIV-B"}

def storeW : KeyStore := {publicKeys := [kA], privateKeys := [kB]}

def changeLogW : List (String × LogEntry) :=
  [("aa", ⟨ChangeType.INSERT, 3⟩), ("bb", ⟨ChangeType.INSERT, 4⟩),
   ("cc", ⟨ChangeType.DELETE, 5⟩), ("dd", ⟨ChangeType.UPDATE, 6⟩)]

/-- Witness for C1: the payload built from a concrete store and change
log has the armored public forms for the two INSERT entries, the DELETE
entry in `deletedKeys`, and nothing for the UPDATE entry. -/
theorem C1_witness :
    (encryptSyncMessage storeW changeLogW).insertedKeys.lookup "aa" = some ⟨"PUB-A", 3⟩ ∧
    (encryptSyncMessage storeW changeLogW).insertedKeys.lookup "bb" = some ⟨"PUB-B", 4⟩ ∧
    (encryptSyncMessage storeW changeLogW).deletedKeys.lookup "cc" = some ⟨5⟩ ∧
    (encryptSyncMessage storeW changeLogW).insertedKeys.lookup "dd" = none := by
  have h := C1_payload_construction storeW changeLogW (by decide) (by decide) (by decide)
  exact ⟨h.1 kA (by decide) 3 (by decide),
         h.2.1 kB (by decide) 4 (by decide),
         h.2.2.1 "cc" ⟨ChangeType.DELETE, 5⟩ (by decide) rfl,
         (h.2.2.2.2 "dd" 6 (by decide)).1⟩

/-- Concrete state refuting the UPDATE half of the original C1. -/
def kU : PKey := {fpr := "uu", keyId := "ku", armoredPub := "PUB-U"}

def storeU : KeyStore := {publicKeys := [kU]}

def changeLogU : List (String × LogEntry) := [("uu", ⟨ChangeType.UPDATE, 7⟩)]

/-- Counterexample to C1 as stated: a key that is present in the
KeyStore and whose fingerprint has a change-log entry of type UPDATE is
not placed into `insertedKeys` (the claim requires it to be there with
its armored public form). -/
theorem C1_counterexample :
    kU ∈ storeU.publicKeys ∧
    changeLogU.lookup kU.fpr = some ⟨ChangeType.UPDATE, 7⟩ ∧
    (encryptSyncMessage storeU changeLogU).insertedKeys.lookup kU.fpr = none := by
  decide

/-- A signature attached to a decrypted message, as reported by the
external OpenPGP engine: validity flag (null, false or true) and the
hex key id of the issuer. -/
structure Sig where
  valid : Option Bool := none
  keyid : String := ""
deriving DecidableEq

/-- A decrypted and JSON-parsed sync message as consumed by
`decryptSyncMessage`: the sync payload plus the signature list from the
engine's decrypt result. -/
structure SyncClearMsg where
  data : SyncData
  signatures : List Sig
deriving DecidableEq

/-- An entry of the key list returned by `decryptSyncMessage`
(`{type: 'public', armored}`). -/
structure PubEntry where
  typ : String
  armored : String
deriving DecidableEq

/-- The merge result of `decryptSyncMessage`: a change log and the list
of armored public keys to import. -/
structure MergeResult where
  changeLog : List (String × LogEntry) := []
  keys : List PubEntry := []
deriving DecidableEq

/-- The loop over `syncData.insertedKeys` in `decryptSyncMessage`. -/
def insFold (ins : List (String × InsEntry)) (r : MergeResult) : MergeResult :=
  ins.foldl
    (fun r p =>
      {changeLog := setKV r.changeLog p.1 ⟨ChangeType.INSERT, p.2.time⟩,
       keys := r.keys ++ [⟨"public", p.2.armored⟩]})
    r

/-- The loop over `syncData.deletedKeys` in `decryptSyncMessage`. -/
def mergeDelFold (del : List (String × DelEntry)) (r : MergeResult) : MergeResult :=
  del.foldl
    (fun r p => {r with changeLog := setKV r.changeLog p.1 ⟨ChangeType.DELETE, p.2.time⟩})
    r

/-- The signature test of `decryptSyncMessage`:
`sig && sig.valid && sig.keyid.equals(key.getSigningKeyPacket().getKeyId())`
applied to `signatures[0]`. -/
def sigCheck (signingKeyId : String) : List Sig → Bool
  | [] => false
  | sig :: _ => sig.valid == some true && sig.keyid == signingKeyId

/-- `decryptSyncMessage(key, message)` from pgpModel.js, modelled at the
boundary of the external `openpgp.decrypt` call: the argument is the
decrypted message carrying the parsed sync payload and the signature
list, together with the key id of the keyring key's signing key packet.
The code inspects `signatures[0]` only: the message is rejected unless
the first signature exists, is valid and was issued by the expected
signing key; otherwise the merge change log and key list are built from
`insertedKeys` and then `deletedKeys` (a later entry for the same
fingerprint overwrites the earlier one). -/
def decryptSyncMessage (signingKeyId : String) (msg : SyncClearMsg) :
    Except String MergeResult :=
  if sigCheck signingKeyId msg.signatures then
    .ok (mergeDelFold msg.data.deletedKeys (insFold msg.data.insertedKeys {}))
  else
    .error "Signature of synced keyring is invalid"

theorem sigCheck_eq_false (signingKeyId : String) (sigs : List Sig)
    (h : ∀ sig ∈ sigs, ¬(sig.valid = some true ∧ sig.keyid = signingKeyId)) :
    sigCheck signingKeyId sigs = false := by
  cases sigs with
  | nil => rfl
  | cons sig rest =>
    have hs := h sig (List.mem_cons_self _ _)
    by_cases h1 : sig.valid = some true
    · by_cases h2 : sig.keyid = signingKeyId
      · exact absurd ⟨h1, h2⟩ hs
      · simp [sigCheck, beq_iff_eq, h2]
    · simp [sigCheck, beq_iff_eq, h1]

theorem insFold_keys_mono (ins : List (String × InsEntry)) (r : MergeResult)
    (x : PubEntry) (hx : x ∈ r.keys) : x ∈ (insFold ins r).keys := by
  induction ins generalizing r with
  | nil => exact hx
  | cons p rest ih =>
    rw [insFold, List.foldl_cons, ← insFold]
    exact ih _ (List.mem_append_left _ hx)

theorem insFold_keys_of_mem (ins : List (String × InsEntry)) (r : MergeResult)
    (f : String) (e : InsEntry) (hmem : (f, e) ∈ ins) :
    (⟨"public", e.armored⟩ : PubEntry) ∈ (insFold ins r).keys := by
  induction ins generalizing r with
  | nil => cases hmem
  | cons p rest ih =>
    rw [insFold, List.foldl_cons, ← insFold]
    rcases List.mem_cons.mp hmem with hx | hx
    · subst hx
      exact insFold_keys_mono rest _ _ (List.mem_append_right _ (List.mem_singleton.mpr rfl))
    · exact ih _ hx

theorem insFold_changeLog_preserve (ins : List (String × InsEntry)) (r : MergeResult)
    (f : String) (h : ∀ p ∈ ins, p.1 ≠ f) :
    (insFold ins r).changeLog.lookup f = r.changeLog.lookup f := by
  induction ins generalizing r with
  | nil => rfl
  | cons p rest ih =>
    rw [insFold, List.foldl_cons, ← insFold]
    rw [ih _ (fun p' hp' => h p' (List.mem_cons_of_mem _ hp'))]
    exact lookup_setKV_other _ _ _ _
      (fun hf => h p (List.mem_cons_self _ _) hf.symm)

theorem insFold_changeLog_of_mem (ins : List (String × InsEntry)) (r : MergeResult)
    (f : String) (e : InsEntry) (hnd : (ins.map Prod.fst).Nodup) (hmem : (f, e) ∈ ins) :
    (insFold ins r).changeLog.lookup f = some ⟨ChangeType.INSERT, e.time⟩ := by
  induction ins generalizing r with
  | nil => cases hmem
  | cons p rest ih =>
    simp only [List.map_cons, List.nodup_cons] at hnd
    rw [insFold, List.foldl_cons, ← insFold]
    rcases List.mem_cons.mp hmem with hx | hx
    · subst hx
      rw [insFold_changeLog_preserve rest _ f
        (fun p' hp' hf => hnd.1 (hf ▸ List.mem_map.mpr ⟨p', hp', rfl⟩))]
      exact lookup_setKV_same _ _ _
    · exact ih _ hnd.2 hx

theorem mergeDelFold_keys (del : List (String × DelEntry)) (r : MergeResult) :
    (mergeDelFold del r).keys = r.keys := by
  induction del generalizing r with
  | nil => rfl
  | cons p rest ih =>
    rw [mergeDelFold, List.foldl_cons, ← mergeDelFold]
    rw [ih]

theorem mergeDelFold_changeLog_preserve (del : List (String × DelEntry)) (r : MergeResult)
    (f : String) (h : ∀ p ∈ del, p.1 ≠ f) :
    (mergeDelFold del r).changeLog.lookup f = r.changeLog.lookup f := by
  induction del generalizing r with
  | nil => rfl
  | cons p rest ih =>
    rw [mergeDelFold, List.foldl_cons, ← mergeDelFold]
    rw [ih _ (fun p' hp' => h p' (List.mem_cons_of_mem _ hp'))]
    exact lookup_setKV_other _ _ _ _
      (fun hf => h p (List.mem_cons_self _ _) hf.symm)

theorem mergeDelFold_changeLog_of_mem (del : List (String × DelEntry)) (r : MergeResult)
    (f : String) (e : DelEntry) (hnd : (del.map Prod.fst).Nodup) (hmem : (f, e) ∈ del) :
    (mergeDelFold del r).changeLog.lookup f = some ⟨ChangeType.DELETE, e.time⟩ := by
  induction del generalizing r with
  | nil => cases hmem
  | cons p rest ih =>
    simp only [List.map_cons, List.nodup_cons] at hnd
    rw [mergeDelFold, List.foldl_cons, ← mergeDelFold]
    rcases List.mem_cons.mp hmem with hx | hx
    · subst hx
      rw [mergeDelFold_changeLog_preserve rest _ f
        (fun p' hp' hf => hnd.1 (hf ▸ List.mem_map.mpr ⟨p', hp', rfl⟩))]
      exact lookup_setKV_same _ _ _
    · exact ih _ hnd.2 hx

/-- C3: `decryptSyncMessage` verifies the payload signature against the
keyring's own key: if no valid signature with the key's signing-key id
is present, the message is rejected with an error, so no merge change
log or key list is produced; on success the returned change log has an
INSERT entry (with the original timestamp, the armored key going to the
key list) per `insertedKeys` fingerprint and a DELETE entry per
`deletedKeys` fingerprint.  The payload is assumed well formed in the
sense of the SyncPayload data-model invariant: fingerprints are unique
within each map and no fingerprint occurs in both maps. -/
theorem C3_signature_gate (signingKeyId : String) (msg : SyncClearMsg)
    (hins : (msg.data.insertedKeys.map Prod.fst).Nodup)
    (hdel : (msg.data.deletedKeys.map Prod.fst).Nodup)
    (hdisj : ∀ f, f ∈ msg.data.insertedKeys.map Prod.fst →
      f ∉ msg.data.deletedKeys.map Prod.fst) :
    ((∀ sig ∈ msg.signatures, ¬(sig.valid = some true ∧ sig.keyid = signingKeyId)) →
       decryptSyncMessage signingKeyId msg = .error "Signature of synced keyring is invalid") ∧
    (∀ r, decryptSyncMessage signingKeyId msg = .ok r →
      (∀ f e, (f, e) ∈ msg.data.insertedKeys →
        r.changeLog.lookup f = some ⟨ChangeType.INSERT, e.time⟩ ∧
        (⟨"public", e.armored⟩ : PubEntry) ∈ r.keys) ∧
      (∀ f e, (f, e) ∈ msg.data.deletedKeys →
        r.changeLog.lookup f = some ⟨ChangeType.DELETE, e.time⟩)) := by
  constructor
  · intro hnone
    unfold decryptSyncMessage
    rw [sigCheck_eq_false signingKeyId msg.signatures hnone]
    rw [if_neg Bool.false_ne_true]
  · intro r hr
    unfold decryptSyncMessage at hr
    cases hsc : sigCheck signingKeyId msg.signatures with
    | false =>
      rw [hsc, if_neg Bool.false_ne_true] at hr
      cases hr
    | true =>
      rw [hsc, if_pos rfl] at hr
      cases hr
      constructor
      · intro f e hmem
        constructor
        · rw [mergeDelFold_changeLog_preserve _ _ f
            (fun p hp hf => hdisj f (List.mem_map.mpr ⟨(f, e), hmem, rfl⟩)
              (hf ▸ List.mem_map.mpr ⟨p, hp, rfl⟩))]
          exact insFold_changeLog_of_mem _ _ f e hins hmem
        · rw [mergeDelFold_keys]
          exact insFold_keys_of_mem _ _ f e hmem
      · intro f e hmem
        exact mergeDelFold_changeLog_of_mem _ _ f e hdel hmem

/-- Concrete inbound messages used to exercise the signature gate. -/
def msgGood : SyncClearMsg :=
  {data := {insertedKeys := [("aa", ⟨"ARM-A", 3⟩)], deletedKeys := [("cc", ⟨5⟩)]},
   signatures := [{valid := some true, keyid := "sk"}]}

def msgBad : SyncClearMsg :=
  {data := {insertedKeys := [("aa", ⟨"ARM-A", 3⟩)], deletedKeys := [("cc", ⟨5⟩)]},
   signatures := [{valid := some false, keyid := "sk"}]}

def mergeGood : MergeResult :=
  {changeLog := [("aa", ⟨ChangeType.INSERT, 3⟩), ("cc", ⟨ChangeType.DELETE, 5⟩)],
   keys := [⟨"public", "ARM-A"⟩]}

/-- Witness for C3: an invalid first signature is rejected, and on the
valid message the merge result carries the INSERT and DELETE entries. -/
theorem C3_witness :
    decryptSyncMessage "sk" msgBad = .error "Signature of synced keyring is invalid" ∧
    mergeGood.changeLog.lookup "aa" = some ⟨ChangeType.INSERT, 3⟩ ∧
    (⟨"public", "ARM-A"⟩ : PubEntry) ∈ mergeGood.keys ∧
    mergeGood.changeLog.lookup "cc" = some ⟨ChangeType.DELETE, 5⟩ := by
  have hb := C3_signature_gate "sk" msgBad (by decide) (by decide) (by decide)
  have hg := C3_signature_gate "sk" msgGood (by decide) (by decide) (by decide)
  have hok : decryptSyncMessage "sk" msgGood = .ok mergeGood := by rfl
  have h1 := (hg.2 mergeGood hok).1 "aa" ⟨"ARM-A", 3⟩ (by decide)
  have h2 := (hg.2 mergeGood hok).2 "cc" ⟨5⟩ (by decide)
  exact ⟨hb.1 (by decide), h1.1, h1.2, h2⟩

/-- C10: when a fingerprint occurs in both `insertedKeys` and
`deletedKeys` of an inbound payload, the second loop of
`decryptSyncMessage` overwrites the INSERT entry, so the merge change
log records a single DELETE entry for it, while the armored public key
is still pushed onto the returned key list by the first loop. -/
theorem C10_overlap_delete_wins (signingKeyId : String) (msg : SyncClearMsg)
    (r : MergeResult) (f : String) (ie : InsEntry) (de : DelEntry)
    (hok : decryptSyncMessage signingKeyId msg = .ok r)
    (hinsmem : (f, ie) ∈ msg.data.insertedKeys)
    (hdelmem : (f, de) ∈ msg.data.deletedKeys)
    (hnd : (msg.data.deletedKeys.map Prod.fst).Nodup) :
    r.changeLog.lookup f = some ⟨ChangeType.DELETE, de.time⟩ ∧
    (⟨"public", ie.armored⟩ : PubEntry) ∈ r.keys := by
  unfold decryptSyncMessage at hok
  cases hsc : sigCheck signingKeyId msg.signatures with
  | false =>
    rw [hsc, if_neg Bool.false_ne_true] at hok
    cases hok
  | true =>
    rw [hsc, if_pos rfl] at hok
    cases hok
    constructor
    · exact mergeDelFold_changeLog_of_mem _ _ f de hnd hdelmem
    · rw [mergeDelFold_keys]
      exact insFold_keys_of_mem _ _ f ie hinsmem

/-- Concrete overlapping payload for C10. -/
def msgOverlap : SyncClearMsg :=
  {data := {insertedKeys := [("xx", ⟨"ARM-X", 1⟩)], deletedKeys := [("xx", ⟨9⟩)]},
   signatures := [{valid := some true, keyid := "sk"}]}

def mergeOverlap : MergeResult :=
  {changeLog := [("xx", ⟨ChangeType.DELETE, 9⟩)],
   keys := [⟨"public", "ARM-X"⟩]}

/-- Witness for C10: on the concrete overlapping payload the change log
holds a single DELETE entry while the armored key is still listed. -/
theorem C10_witness :
    mergeOverlap.changeLog.lookup "xx" = some ⟨ChangeType.DELETE, 9⟩ ∧
    (⟨"public", "ARM-X"⟩ : PubEntry) ∈ mergeOverlap.keys := by
  have hok : decryptSyncMessage "sk" msgOverlap = .ok mergeOverlap := by rfl
  exact C10_overlap_delete_wins "sk" msgOverlap mergeOverlap "xx" ⟨"ARM-X", 1⟩ ⟨9⟩
    hok (by decide) (by decide) (by decide)

/-- Modelled from the spec: `validatePrimaryKey` (KeyringBase is not in
the sources) â a primary key must be capable of both signing and
encryption and must not be expired (spec section 4.2). -/
def validatePrimaryKey (k : PKey) : Bool :=
  k.canSign && k.canEncrypt && !k.expired

/-- `privateKeys.getForId(fpr)`: the first key of the collection whose
primary fingerprint matches. -/
def getForId (keys : List PKey) (fpr : String) : Option PKey :=
  keys.find? (fun k => k.fpr == fpr)

/-- The keyring state relevant to primary-key selection: the private
key collection and the persisted primary-key attribute (the empty
string meaning unset). -/
structure PrimState where
  privateKeys : List PKey := []
  attr : String := ""
deriving DecidableEq

/-- One step of the fallback scan of `getPrimaryKey` (KeyringLocal.js
41-46): adopt the candidate if there is no current pick or the
candidate was created strictly later, and it validates. -/
def scanStep (primaryKey : Option PKey) (key : PKey) : Option PKey :=
  match primaryKey with
  | none => if validatePrimaryKey key then some key else none
  | some p => if p.created < key.created ∧ validatePrimaryKey key then some key else some p

/-- The fallback scan over all private keys. -/
def fallbackScan (keys : List PKey) : Option PKey :=
  keys.foldl scanStep none

/-- The stored-attribute branch of `getPrimaryKey` (KeyringLocal.js
30-38): resolve the persisted fingerprint; clear the attribute when the
key is missing or fails validation. -/
def primaryFromAttr (s : PrimState) : Option PKey × PrimState :=
  if s.attr ≠ "" then
    match getForId s.privateKeys s.attr with
    | some k =>
      if validatePrimaryKey k then (some k, s) else (none, {s with attr := ""})
    | none => (none, {s with attr := ""})
  else (none, s)

/-- `getPrimaryKey()` from KeyringLocal.js: use the stored primary-key
attribute if it resolves to an existing valid private key; otherwise
clear it, fall back to the newest-created valid private key and persist
its fingerprint; return null if no valid private key exists. -/
def getPrimaryKey (s : PrimState) : Option PKey × PrimState :=
  match primaryFromAttr s with
  | (some k, s1) => (some k, s1)
  | (none, s1) =>
    match fallbackScan s1.privateKeys with
    | some k => (some k, {s1 with attr := k.fpr})
    | none => (none, s1)

theorem getForId_mem (keys : List PKey) (f : String) (k : PKey)
    (h : getForId keys f = some k) : k ∈ keys ∧ k.fpr = f := by
  refine ⟨List.mem_of_find?_eq_some h, ?_⟩
  have := List.find?_some h
  exact beq_iff_eq.mp this

theorem getForId_of_mem_nodup (keys : List PKey) (r : PKey)
    (hnd : (keys.map PKey.fpr).Nodup) (hr : r ∈ keys) :
    getForId keys r.fpr = some r := by
  induction keys with
  | nil => cases hr
  | cons x rest ih =>
    simp only [List.map_cons, List.nodup_cons] at hnd
    rcases List.mem_cons.mp hr with h | h
    · subst h
      simp [getForId, List.find?]
    · have hne : x.fpr ≠ r.fpr := by
        intro he
        exact hnd.1 (he ▸ List.mem_map.mpr ⟨r, h, rfl⟩)
      rw [getForId, List.find?]
      rw [show (x.fpr == r.fpr) = false from beq_eq_false_iff_ne.mpr hne]
      exact ih hnd.2 h

theorem scan_none_of_all_invalid (keys : List PKey)
    (h : ∀ k ∈ keys, validatePrimaryKey k = false) :
    fallbackScan keys = none := by
  unfold fallbackScan
  induction keys with
  | nil => rfl
  | cons x rest ih =>
    rw [List.foldl_cons]
    rw [show scanStep none x = none from by
      simp [scanStep, h x (List.mem_cons_self _ _)]]
    exact ih (fun k hk => h k (List.mem_cons_of_mem _ hk))

theorem scan_some (keys : List PKey) (acc : Option PKey) (r : PKey)
    (hacc : ∀ p, acc = some p → validatePrimaryKey p = true)
    (h : keys.foldl scanStep acc = some r) :
    validatePrimaryKey r = true ∧ (r ∈ keys ∨ acc = some r) ∧
    (∀ k ∈ keys, validatePrimaryKey k = true → k.created ≤ r.created) ∧
    (∀ p, acc = some p → p.created ≤ r.created) := by
  induction keys generalizing acc with
  | nil =>
    simp only [List.foldl_nil] at h
    refine ⟨hacc r h, Or.inr h, by simp, fun p hp => ?_⟩
    rw [h] at hp
    cases hp
    exact Nat.le_refl _
  | cons x rest ih =>
    rw [List.foldl_cons] at h
    cases acc with
    | none =>
      by_cases hv : validatePrimaryKey x
      · rw [show scanStep none x = some x from by simp [scanStep, hv]] at h
        obtain ⟨hr1, hr2, hr3, hr4⟩ := ih _ (fun p hp => by cases hp; exact hv) h
        refine ⟨hr1, ?_, ?_, ?_⟩
        · rcases hr2 with hm | hm
          · exact Or.inl (List.mem_cons_of_mem _ hm)
          · exact Or.inl (Option.some.inj hm ▸ List.mem_cons_self _ _)
        · intro k hk hkv
          rcases List.mem_cons.mp hk with he | he
          · subst he
            exact hr4 k rfl
          · exact hr3 k he hkv
        · intro p hp
          cases hp
      · rw [show scanStep none x = none from by simp [scanStep, hv]] at h
        obtain ⟨hr1, hr2, hr3, hr4⟩ := ih _ (fun p hp => by cases hp) h
        refine ⟨hr1, ?_, ?_, ?_⟩
        · rcases hr2 with hm | hm
          · exact Or.inl (List.mem_cons_of_mem _ hm)
          · cases hm
        · intro k hk hkv
          rcases List.mem_cons.mp hk with he | he
          · subst he
            exact absurd hkv hv
          · exact hr3 k he hkv
        · intro p hp
          cases hp
    | some p =>
      have hpv : validatePrimaryKey p = true := hacc p rfl
      by_cases hlt : p.created < x.created ∧ validatePrimaryKey x
      · rw [show scanStep (some p) x = some x from by simp [scanStep, if_pos hlt]] at h
        obtain ⟨hr1, hr2, hr3, hr4⟩ := ih _ (fun q hq => by cases hq; exact hlt.2) h
        refine ⟨hr1, ?_, ?_, ?_⟩
        · rcases hr2 with hm | hm
          · exact Or.inl (List.mem_cons_of_mem _ hm)
          · exact Or.inl (Option.some.inj hm ▸ List.mem_cons_self _ _)
        · intro k hk hkv
          rcases List.mem_cons.mp hk with he | he
          · subst he
            exact hr4 k rfl
          · exact hr3 k he hkv
        · intro q hq
          cases hq
          exact Nat.le_trans (Nat.le_of_lt hlt.1) (hr4 x rfl)
      · rw [show scanStep (some p) x = some p from by simp [scanStep, if_neg hlt]] at h
        obtain ⟨hr1, hr2, hr3, hr4⟩ := ih _ hacc h
        refine ⟨hr1, ?_, ?_, ?_⟩
        · rcases hr2 with hm | hm
          · exact Or.inl (List.mem_cons_of_mem _ hm)
          · exact Or.inr hm
        · intro k hk hkv
          rcases List.mem_cons.mp hk with he | he
          · subst he
            have hnlt : ¬ p.created < k.created := fun hc => hlt ⟨hc, hkv⟩
            exact Nat.le_trans (Nat.le_of_not_lt hnlt) (hr4 p rfl)
          · exact hr3 k he hkv
        · exact hr4

theorem fallbackScan_some (keys : List PKey) (r : PKey)
    (h : fallbackScan keys = some r) :
    validatePrimaryKey r = true ∧ r ∈ keys ∧
    (∀ k ∈ keys, validatePrimaryKey k = true → k.created ≤ r.created) := by
  obtain ⟨h1, h2, h3, _⟩ := scan_some keys none r (fun p hp => by cases hp) h
  rcases h2 with hm | hm
  · exact ⟨h1, hm, h3⟩
  · cases hm

theorem primaryFromAttr_none_attr (s : PrimState) (s1 : PrimState)
    (h : primaryFromAttr s = (none, s1)) :
    s1.attr = "" ∧ s1.privateKeys = s.privateKeys := by
  unfold primaryFromAttr at h
  by_cases ha : s.attr ≠ ""
  · rw [if_pos ha] at h
    cases hf : getForId s.privateKeys s.attr with
    | some k =>
      simp only [hf] at h
      by_cases hv : validatePrimaryKey k
      · rw [if_pos hv] at h
        cases h
      · rw [if_neg hv] at h
        cases h
        exact ⟨rfl, rfl⟩
    | none =>
      simp only [hf] at h
      cases h
      exact ⟨rfl, rfl⟩
  · rw [if_neg ha] at h
    cases h
    push_neg at ha
    exact ⟨ha, rfl⟩

theorem primaryFromAttr_empty (s : PrimState) (h : s.attr = "") :
    primaryFromAttr s = (none, s) := by
  unfold primaryFromAttr
  rw [if_neg (by simp [h])]

theorem primaryFromAttr_hit (s : PrimState) (k : PKey)
    (ha : s.attr ≠ "") (hf : getForId s.privateKeys s.attr = some k)
    (hv : validatePrimaryKey k = true) : primaryFromAttr s = (some k, s) := by
  unfold primaryFromAttr
  rw [if_pos ha]
  simp only [hf]
  rw [if_pos hv]

theorem primaryFromAttr_invalid (s : PrimState) (k : PKey)
    (ha : s.attr ≠ "") (hf : getForId s.privateKeys s.attr = some k)
    (hv : validatePrimaryKey k = false) :
    primaryFromAttr s = (none, {s with attr := ""}) := by
  unfold primaryFromAttr
  rw [if_pos ha]
  simp only [hf]
  rw [if_neg (by simp [hv])]

theorem primaryFromAttr_miss (s : PrimState)
    (ha : s.attr ≠ "") (hf : getForId s.privateKeys s.attr = none) :
    primaryFromAttr s = (none, {s with attr := ""}) := by
  unfold primaryFromAttr
  rw [if_pos ha]
  simp only [hf]

theorem primaryFromAttr_some_state (s s1 : PrimState) (k : PKey)
    (h : primaryFromAttr s = (some k, s1)) : s1 = s := by
  unfold primaryFromAttr at h
  by_cases ha : s.attr ≠ ""
  · rw [if_pos ha] at h
    cases hf : getForId s.privateKeys s.attr with
    | some k2 =>
      simp only [hf] at h
      by_cases hv : validatePrimaryKey k2
      · rw [if_pos hv] at h
        cases h
        rfl
      · rw [if_neg hv] at h
        cases h
    | none =>
      simp only [hf] at h
      cases h
  · rw [if_neg ha] at h
    cases h

theorem getPrimaryKey_hit (s s1 : PrimState) (k : PKey)
    (h : primaryFromAttr s = (some k, s1)) : getPrimaryKey s = (some k, s1) := by
  unfold getPrimaryKey
  rw [h]

theorem getPrimaryKey_fallback (s s1 : PrimState)
    (h : primaryFromAttr s = (none, s1)) :
    getPrimaryKey s =
      (match fallbackScan s1.privateKeys with
       | some k => (some k, {s1 with attr := k.fpr})
       | none => (none, s1)) := by
  unfold getPrimaryKey
  rw [h]

/-- C4: `getPrimaryKey` returns the key referenced by the stored
primary-key fingerprint if that private key still exists and passes
validation; otherwise it clears the stored attribute and behaves like a
call on the attribute-free state, falling back to the newest-created
valid private key and persisting its fingerprint as the new attribute;
a repeated call returns the same key, and with no valid private key it
returns null.  Assumes fingerprints are unique within the private-key
collection. -/
theorem C4_getPrimaryKey (s : PrimState)
    (hnd : (s.privateKeys.map PKey.fpr).Nodup) :
    (∀ k, s.attr ≠ "" → getForId s.privateKeys s.attr = some k →
      validatePrimaryKey k = true → getPrimaryKey s = (some k, s)) ∧
    (∀ k, s.attr ≠ "" → getForId s.privateKeys s.attr = some k →
      validatePrimaryKey k = false →
      getPrimaryKey s = getPrimaryKey {s with attr := ""}) ∧
    (s.attr ≠ "" → getForId s.privateKeys s.attr = none →
      getPrimaryKey s = getPrimaryKey {s with attr := ""}) ∧
    (∀ r s', s.attr = "" → getPrimaryKey s = (some r, s') →
      validatePrimaryKey r = true ∧ r ∈ s.privateKeys ∧
      (∀ k ∈ s.privateKeys, validatePrimaryKey k = true → k.created ≤ r.created) ∧
      s' = {s with attr := r.fpr}) ∧
    ((getPrimaryKey (getPrimaryKey s).2).1 = (getPrimaryKey s).1) ∧
    ((∀ k ∈ s.privateKeys, validatePrimaryKey k = false) →
      (getPrimaryKey s).1 = none) := by
  refine ⟨?_, ?_, ?_, ?_, ?_, ?_⟩
  · intro k ha hf hv
    exact getPrimaryKey_hit s s k (primaryFromAttr_hit s k ha hf hv)
  · intro k ha hf hv
    rw [getPrimaryKey_fallback s _ (primaryFromAttr_invalid s k ha hf hv),
        getPrimaryKey_fallback {s with attr := ""} {s with attr := ""}
          (primaryFromAttr_empty _ rfl)]
  · intro ha hf
    rw [getPrimaryKey_fallback s _ (primaryFromAttr_miss s ha hf),
        getPrimaryKey_fallback {s with attr := ""} {s with attr := ""}
          (primaryFromAttr_empty _ rfl)]
  · intro r s' ha hok
    rw [getPrimaryKey_fallback s s (primaryFromAttr_empty s ha)] at hok
    cases hfb : fallbackScan s.privateKeys with
    | some q =>
      rw [hfb] at hok
      cases hok
      obtain ⟨h1, h2, h3⟩ := fallbackScan_some _ _ hfb
      exact ⟨h1, h2, h3, rfl⟩
    | none =>
      rw [hfb] at hok
      cases hok
  · rcases hpa : primaryFromAttr s with ⟨ok, s1⟩
    cases ok with
    | some k =>
      have hs1 : s1 = s := primaryFromAttr_some_state s s1 k hpa
      subst hs1
      rw [getPrimaryKey_hit s1 s1 k hpa]
      show (getPrimaryKey s1).1 = some k
      rw [getPrimaryKey_hit s1 s1 k hpa]
    | none =>
      obtain ⟨ha1, hpk⟩ := primaryFromAttr_none_attr s s1 hpa
      rw [getPrimaryKey_fallback s s1 hpa]
      cases hfb : fallbackScan s1.privateKeys with
      | none =>
        show (getPrimaryKey s1).1 = none
        rw [getPrimaryKey_fallback s1 s1 (primaryFromAttr_empty s1 ha1), hfb]
      | some r =>
        show (getPrimaryKey {s1 with attr := r.fpr}).1 = some r
        obtain ⟨hrv, hrm, _⟩ := fallbackScan_some _ _ hfb
        by_cases hfpr : r.fpr = ""
        · rw [getPrimaryKey_fallback {s1 with attr := r.fpr} {s1 with attr := r.fpr}
            (primaryFromAttr_empty _ hfpr)]
          have hfb2 : fallbackScan ({s1 with attr := r.fpr} : PrimState).privateKeys = some r := hfb
          rw [hfb2]
        · have hnd1 : (s1.privateKeys.map PKey.fpr).Nodup := by
            rw [hpk]
            exact hnd
          have hget : getForId ({s1 with attr := r.fpr} : PrimState).privateKeys
              ({s1 with attr := r.fpr} : PrimState).attr = some r :=
            getForId_of_mem_nodup s1.privateKeys r hnd1 hrm
          rw [getPrimaryKey_hit {s1 with attr := r.fpr} {s1 with attr := r.fpr} r
            (primaryFromAttr_hit _ r hfpr hget hrv)]
  · intro hall
    by_cases ha : s.attr = ""
    · rw [getPrimaryKey_fallback s s (primaryFromAttr_empty s ha)]
      rw [scan_none_of_all_invalid s.privateKeys hall]
    · cases hf : getForId s.privateKeys s.attr with
      | none =>
        rw [getPrimaryKey_fallback s _ (primaryFromAttr_miss s ha hf)]
        have hn : fallbackScan ({s with attr := ""} : PrimState).privateKeys = none :=
          scan_none_of_all_invalid s.privateKeys hall
        rw [hn]
      | some k =>
        have hkm := getForId_mem s.privateKeys s.attr k hf
        rw [getPrimaryKey_fallback s _
          (primaryFromAttr_invalid s k ha hf (hall k hkm.1))]
        have hn : fallbackScan ({s with attr := ""} : PrimState).privateKeys = none :=
          scan_none_of_all_invalid s.privateKeys hall
        rw [hn]

/-- Concrete private keys for the primary-key selection witness. -/
def keyP1 : PKey := {fpr := "p1", keyId := "k1", isPriv := true, created := 10}

def keyP2 : PKey := {fpr := "p2", keyId := "k2", isPriv := true, created := 20}

def keyP3 : PKey := {fpr := "p3", keyId := "k3", isPriv := true, created := 30, expired := true}

def primStateW : PrimState := {privateKeys := [keyP1, keyP2, keyP3], attr := ""}

/-- Witness for C4: with no stored attribute, the fallback picks the
newest valid private key (the expired newest one is skipped), persists
its fingerprint, and a repeated call returns the same key. -/
theorem C4_witness :
    validatePrimaryKey keyP2 = true ∧ keyP2 ∈ primStateW.privateKeys ∧
    (∀ k ∈ primStateW.privateKeys, validatePrimaryKey k = true →
      k.created ≤ keyP2.created) ∧
    ({privateKeys := [keyP1, keyP2, keyP3], attr := "p2"} : PrimState) =
      {primStateW with attr := keyP2.fpr} ∧
    (getPrimaryKey (getPrimaryKey primStateW).2).1 = (getPrimaryKey primStateW).1 := by
  have h := C4_getPrimaryKey primStateW (by decide)
  have hok : getPrimaryKey primStateW =
      (some keyP2, {privateKeys := [keyP1, keyP2, keyP3], attr := "p2"}) := by decide
  obtain ⟨h1, h2, h3, h4⟩ := h.2.2.2.1 keyP2 _ rfl hok
  exact ⟨h1, h2, h3, h4, h.2.2.2.2.1⟩

/-- A packet of an OpenPGP message as inspected by
`restorePrivateKeyBackup`: the packet tag and, for tag-3 packets, the
session-key algorithm and the optional session-key encryption
algorithm. -/
structure BPacket where
  tag : Nat
  sessionKeyAlgorithm : Option String := none
  sessionKeyEncryptionAlgorithm : Option String := none
deriving DecidableEq

/-- The cleartext content of a private-key backup message: the literal
packet's text followed by the packets of the private key. -/
structure ClearMsg where
  text : List Char
  key : PKey
deriving DecidableEq

/-- A symmetrically encrypted OpenPGP message, modelled at the crypto
boundary: the externally visible packet structure, the protected
content, and the password the content is encrypted under. -/
structure EncMsg where
  packets : List BPacket
  plain : ClearMsg
  pwd : String
deriving DecidableEq

/-- Modelled from the spec: `symEncrypt` (modules/crypto.js is not in
the sources) encrypts a message under a password with the aes256
session cipher, yielding one tag-3 symmetric-key encrypted session-key
packet (no session-key encryption wrapping) followed by one tag-18
integrity-protected data packet. -/
def symEncrypt (msg : ClearMsg) (password : String) : EncMsg :=
  {packets := [{tag := 3, sessionKeyAlgorithm := some "aes256"}, {tag := 18}],
   plain := msg, pwd := password}

/-- Decryption at the crypto boundary: the content is recovered exactly
when the password matches. -/
def EncMsg.decrypt (m : EncMsg) (password : String) : Option ClearMsg :=
  if password = m.pwd then some m.plain else none

/-- The plaintext preamble built by `createPrivateKeyBackup`:
`'Version: 1\n' + 'Pwd: ' + keyPwd + '\n'`. -/
def preamble (keyPwd : List Char) : List Char :=
  ['V', 'e', 'r', 's', 'i', 'o', 'n', ':', ' ', '1', '\n', 'P', 'w', 'd', ':', ' '] ++
    keyPwd ++ ['\n']

/-- `createPrivateKeyBackup(primaryKey, keyPwd)` from pgpModel.js:
build the preamble, concatenate the key's packet structure, and
symmetrically encrypt the whole under the backup code (the random
26-character code generation is external, so the code is a
parameter). -/
def createPrivateKeyBackup (primaryKey : PKey) (keyPwd : List Char)
    (backupCode : String) : EncMsg :=
  symEncrypt {text := preamble keyPwd, key := primaryKey} backupCode

/-- Prepend a character to the first chunk of a split result. -/
def consHead (c : Char) : List (List Char) → List (List Char)
  | [] => [[c]]
  | h :: t => (c :: h) :: t

/-- `txt.split('\n')` on a character list. -/
def splitOnLF : List Char → List (List Char)
  | [] => [[]]
  | c :: rest => if c = '\n' then [] :: splitOnLF rest else consHead c (splitOnLF rest)

/-- The whitespace class of the JavaScript regular expression used by
`parseMetaInfo` (`\s`), restricted to the ASCII whitespace characters. -/
def isWS (c : Char) : Bool :=
  c == ' ' || c == '\t' || c == '\n' || c == '\r' || c == '\x0b' || c == '\x0c'

/-- `row.split(/:\s/)` on a character list: the separator is a colon
immediately followed by a whitespace character, both consumed. -/
def splitColonWS : List Char → List (List Char)
  | [] => [[]]
  | [c] => [[c]]
  | c :: c2 :: rest =>
    if c = ':' ∧ isWS c2 then [] :: splitColonWS rest
    else consHead c (splitColonWS (c2 :: rest))

/-- Processing of one row by `parseMetaInfo`: a nonempty row is split
at the first colon-whitespace separator and stored as a key-value
pair. -/
def metaStep (result : List (List Char × Option (List Char))) (row : List Char) :
    List (List Char × Option (List Char)) :=
  if row.length ≠ 0 then
    setKV result ((splitColonWS row).headD []) (splitColonWS row)[1]?
  else result

/-- `parseMetaInfo(txt)` from pgpModel.js: strip carriage returns,
split into rows at line feeds, and for every nonempty row store the
part after the first colon-whitespace separator (if any) under the part
before it. -/
def parseMetaInfo (txt : List Char) : List (List Char × Option (List Char)) :=
  (splitOnLF (txt.filter (fun c => !(c == '\r')))).foldl metaStep []

inductive RestoreError where
  | MalformedBackup
  | WrongRestoreCode
deriving DecidableEq

/-- The result of a successful restore: the rebuilt private key and the
password extracted from the preamble (`undefined` when absent). -/
structure RestoreOk where
  key : PKey
  password : Option (List Char)
deriving DecidableEq

/-- The packet-structure validation of `restorePrivateKeyBackup`
(pgpModel.js 240-245): exactly two packets, a tag-3 symmetric-key
encrypted session-key packet with session-key algorithm aes256 whose
session-key encryption algorithm is absent or aes256, then one tag-18
integrity-protected data packet. -/
def backupStructureOk (packets : List BPacket) : Bool :=
  match packets with
  | [p0, p1] =>
    p0.tag == 3 && p0.sessionKeyAlgorithm == some "aes256" &&
      (p0.sessionKeyEncryptionAlgorithm == none ||
        p0.sessionKeyEncryptionAlgorithm == some "aes256") &&
      p1.tag == 18
  | _ => false

/-- The packet structure in the words of the specification sentence for
section 4.5: a fixed strong cipher and no additional key-derivation
wrapping at all (refinement comparison definition, written from the
spec, to be diffed against `backupStructureOk`). -/
def backupStructureSpec (packets : List BPacket) : Bool :=
  match packets with
  | [p0, p1] =>
    p0.tag == 3 && p0.sessionKeyAlgorithm == some "aes256" &&
      p0.sessionKeyEncryptionAlgorithm == none && p1.tag == 18
  | _ => false

/-- `restorePrivateKeyBackup(armoredBlock, code)` from pgpModel.js:
validate the packet structure before any decryption attempt (a
structural deviation is fatal no matter which code is supplied); then
decrypt with the restore code, a failure yielding WRONG_RESTORE_CODE;
then extract the password from the preamble and rebuild the key from
the packets after the literal one. -/
def restorePrivateKeyBackup (m : EncMsg) (code : String) :
    Except RestoreError RestoreOk :=
  if backupStructureOk m.packets then
    match m.decrypt code with
    | none => .error .WrongRestoreCode
    | some clear =>
      .ok {key := clear.key,
           password := ((parseMetaInfo clear.text).lookup ['P', 'w', 'd']).join}
  else
    .error .MalformedBackup

theorem splitOnLF_break (a b : List Char) (h : ∀ c ∈ a, c ≠ '\n') :
    splitOnLF (a ++ '\n' :: b) = a :: splitOnLF b := by
  induction a with
  | nil =>
    show splitOnLF ('\n' :: b) = [] :: splitOnLF b
    simp only [splitOnLF]
    rw [if_pos trivial]
  | cons c a2 ih =>
    have hc : c ≠ '\n' := h c (List.mem_cons_self _ _)
    show splitOnLF (c :: (a2 ++ '\n' :: b)) = (c :: a2) :: splitOnLF b
    simp only [splitOnLF]
    rw [if_neg hc]
    rw [ih (fun x hx => h x (List.mem_cons_of_mem _ hx))]
    rfl

theorem splitColonWS_no_colon (l : List Char) (h : ∀ c ∈ l, c ≠ ':') :
    splitColonWS l = [l] := by
  induction l with
  | nil => rfl
  | cons c rest ih =>
    cases rest with
    | nil => rfl
    | cons c2 rest2 =>
      have hc : ¬(c = ':' ∧ isWS c2) := fun hx => h c (List.mem_cons_self _ _) hx.1
      rw [show splitColonWS (c :: c2 :: rest2) =
          (if c = ':' ∧ isWS c2 then [] :: splitColonWS rest2
           else consHead c (splitColonWS (c2 :: rest2))) from rfl]
      rw [if_neg hc]
      rw [ih (fun x hx => h x (List.mem_cons_of_mem _ hx))]
      rfl

theorem splitColonWS_pwdRow (pwd : List Char) (h : ∀ c ∈ pwd, c ≠ ':') :
    splitColonWS (['P', 'w', 'd', ':', ' '] ++ pwd) = [['P', 'w', 'd'], pwd] := by
  have h1 : splitColonWS (['P', 'w', 'd', ':', ' '] ++ pwd) =
      consHead 'P' (consHead 'w' (consHead 'd' ([] :: splitColonWS pwd))) := rfl
  rw [h1, splitColonWS_no_colon pwd h]
  rfl

theorem parseMetaInfo_preamble (pwd : List Char)
    (h : ∀ c ∈ pwd, c ≠ '\n' ∧ c ≠ '\r' ∧ c ≠ ':') :
    (parseMetaInfo (preamble pwd)).lookup ['P', 'w', 'd'] = some (some pwd) := by
  have hmain : ∀ c ∈ preamble pwd, c ≠ '\r' := by
    intro c hc
    unfold preamble at hc
    rcases List.mem_append.mp hc with h1 | h1
    · rcases List.mem_append.mp h1 with h2 | h2
      · have hfix : ∀ x ∈ (['V', 'e', 'r', 's', 'i', 'o', 'n', ':', ' ', '1', '\n',
            'P', 'w', 'd', ':', ' '] : List Char), x ≠ '\r' := by decide
        exact hfix c h2
      · exact (h c h2).2.1
    · have hlf : ∀ x ∈ (['\n'] : List Char), x ≠ '\r' := by decide
      exact hlf c h1
  have hfil : List.filter (fun c => !(c == '\r')) (preamble pwd) = preamble pwd := by
    apply List.filter_eq_self.mpr
    intro c hc
    rw [show (c == '\r') = false from beq_eq_false_iff_ne.mpr (hmain c hc)]
    rfl
  have hs1 : splitOnLF (preamble pwd) =
      ['V', 'e', 'r', 's', 'i', 'o', 'n', ':', ' ', '1'] ::
        splitOnLF (['P', 'w', 'd', ':', ' '] ++ pwd ++ ['\n']) :=
    splitOnLF_break ['V', 'e', 'r', 's', 'i', 'o', 'n', ':', ' ', '1']
      (['P', 'w', 'd', ':', ' '] ++ pwd ++ ['\n']) (by decide)
  have hnoLF2 : ∀ c ∈ ['P', 'w', 'd', ':', ' '] ++ pwd, c ≠ '\n' := by
    intro c hc
    rcases List.mem_append.mp hc with h1 | h1
    · have hfix : ∀ x ∈ (['P', 'w', 'd', ':', ' '] : List Char), x ≠ '\n' := by decide
      exact hfix c h1
    · exact (h c h1).1
  have hs2 : splitOnLF (['P', 'w', 'd', ':', ' '] ++ pwd ++ ['\n']) =
      (['P', 'w', 'd', ':', ' '] ++ pwd) :: splitOnLF [] :=
    splitOnLF_break (['P', 'w', 'd', ':', ' '] ++ pwd) [] hnoLF2
  have hstep2 : metaStep [(['V', 'e', 'r', 's', 'i', 'o', 'n'], some ['1'])]
      (['P', 'w', 'd', ':', ' '] ++ pwd) =
      setKV [(['V', 'e', 'r', 's', 'i', 'o', 'n'], some ['1'])] ['P', 'w', 'd'] (some pwd) := by
    unfold metaStep
    rw [if_pos (by simp)]
    rw [splitColonWS_pwdRow pwd (fun c hc => (h c hc).2.2)]
    rfl
  unfold parseMetaInfo
  rw [hfil, hs1, hs2]
  rw [show splitOnLF ([] : List Char) = [[]] from rfl]
  rw [List.foldl_cons, List.foldl_cons, List.foldl_cons, List.foldl_nil]
  rw [show metaStep [] ['V', 'e', 'r', 's', 'i', 'o', 'n', ':', ' ', '1'] =
      [(['V', 'e', 'r', 's', 'i', 'o', 'n'], some ['1'])] from rfl]
  rw [hstep2]
  rw [show metaStep (setKV [(['V', 'e', 'r', 's', 'i', 'o', 'n'], some ['1'])]
      ['P', 'w', 'd'] (some pwd)) [] =
      setKV [(['V', 'e', 'r', 's', 'i', 'o', 'n'], some ['1'])] ['P', 'w', 'd'] (some pwd)
      from rfl]
  rw [lookup_setKV_same]

/-- C8 (amended): `restorePrivateKeyBackup` validates the exact packet
structure before attempting decryption — the message must consist of
exactly two packets, a tag-3 symmetric-key encrypted session-key packet
with session cipher aes256 whose session-key encryption algorithm is
absent **or itself aes256**, followed by one tag-18 integrity-protected
data packet — and any deviation is rejected as a malformed-backup error
regardless of the supplied code (so decryption is never consulted); a
structurally valid backup decrypted with a wrong backup code fails with
WrongRestoreCode, distinguishable from the structural error.  (The
original claim required the session-key encryption algorithm to be
absent: the code also accepts the aes256-wrapped variant.) -/
theorem C8_backup_structure_gate (m : EncMsg) :
    (∀ code, backupStructureOk m.packets = false →
      restorePrivateKeyBackup m code = .error .MalformedBackup) ∧
    (∀ code, backupStructureOk m.packets = true → code ≠ m.pwd →
      restorePrivateKeyBackup m code = .error .WrongRestoreCode) ∧
    RestoreError.WrongRestoreCode ≠ RestoreError.MalformedBackup := by
  refine ⟨?_, ?_, by decide⟩
  · intro code hbad
    unfold restorePrivateKeyBackup
    rw [hbad, if_neg Bool.false_ne_true]
  · intro code hok hcode
    unfold restorePrivateKeyBackup
    rw [hok, if_pos rfl]
    rw [show m.decrypt code = none from by
      unfold EncMsg.decrypt
      rw [if_neg hcode]]

/-- A concrete private key and backup content for the C8 and C9
scenarios. -/
def keyBk : PKey := {fpr := "bk", keyId := "kbk", isPriv := true}

def clearBk : ClearMsg := {text := preamble ['p'], key := keyBk}

/-- A message whose first packet carries an aes256-encrypted session
key: it deviates from the structure described by the specification but
is accepted by the code. -/
def mWrap : EncMsg :=
  {packets := [{tag := 3, sessionKeyAlgorithm := some "aes256",
                sessionKeyEncryptionAlgorithm := some "aes256"}, {tag := 18}],
   plain := clearBk, pwd := "CODE-A"}

/-- Counterexample to C8 as stated: `mWrap` deviates from the claimed
structure (its session key is wrapped with aes256 rather than carrying
no key-derivation wrapping), yet it is not rejected as malformed —
decryption is attempted, succeeding with the right code and failing
with WrongRestoreCode with a wrong one. -/
theorem C8_counterexample :
    backupStructureSpec mWrap.packets = false ∧
    restorePrivateKeyBackup mWrap "CODE-A" =
      .ok {key := keyBk, password := some ['p']} ∧
    restorePrivateKeyBackup mWrap "OTHER" = .error .WrongRestoreCode := by
  refine ⟨by decide, by rfl, by rfl⟩

def mBadStruct : EncMsg := {packets := [{tag := 18}], plain := clearBk, pwd := "C"}

def mGoodStruct : EncMsg :=
  createPrivateKeyBackup keyBk ['p'] "ABCDEFGHIJKLMNOPQRSTUVWXYZ"

/-- Witness for C8: a single-packet message is malformed whatever the
code; the backup created with code "ABCDEFGHIJKLMNOPQRSTUVWXYZ" and
restored with a different 26-character code fails with WrongRestoreCode,
which differs from MalformedBackup. -/
theorem C8_witness :
    restorePrivateKeyBackup mBadStruct "C" = .error .MalformedBackup ∧
    restorePrivateKeyBackup mGoodStruct "ZYXWVUTSRQPONMLKJIHGFEDCBA" =
      .error .WrongRestoreCode ∧
    RestoreError.WrongRestoreCode ≠ RestoreError.MalformedBackup := by
  refine ⟨(C8_backup_structure_gate mBadStruct).1 "C" (by decide),
          (C8_backup_structure_gate mGoodStruct).2.1 "ZYXWVUTSRQPONMLKJIHGFEDCBA"
            (by decide) (by decide),
          (C8_backup_structure_gate mGoodStruct).2.2⟩

/-- C9 (amended): for every private key and every passphrase that
contains no line break, no carriage return and no colon, restoring the
backup produced by `createPrivateKeyBackup` with its own backup code
recovers the very key (hence the same fingerprint) and the original
passphrase.  (The original claim quantified over all passphrases; the
preamble parser truncates passphrases containing a colon-whitespace
sequence and breaks on embedded line structure, so the claim fails
without this restriction.) -/
theorem C9_roundtrip (key : PKey) (pwd : List Char) (code : String)
    (h : ∀ c ∈ pwd, c ≠ '\n' ∧ c ≠ '\r' ∧ c ≠ ':') :
    restorePrivateKeyBackup (createPrivateKeyBackup key pwd code) code =
      .ok {key := key, password := some pwd} := by
  have hd : (createPrivateKeyBackup key pwd code).decrypt code =
      some {text := preamble pwd, key := key} := by
    unfold createPrivateKeyBackup symEncrypt EncMsg.decrypt
    rw [if_pos rfl]
  unfold restorePrivateKeyBackup
  rw [show backupStructureOk (createPrivateKeyBackup key pwd code).packets = true from rfl]
  rw [if_pos rfl, hd]
  show Except.ok
      ({key := key,
        password := ((parseMetaInfo (preamble pwd)).lookup ['P', 'w', 'd']).join} : RestoreOk) =
    (Except.ok {key := key, password := some pwd} : Except RestoreError RestoreOk)
  rw [parseMetaInfo_preamble pwd h]
  rfl

/-- Witness for C9: a concrete round trip through backup and restore. -/
theorem C9_witness :
    restorePrivateKeyBackup
        (createPrivateKeyBackup keyBk ['s', 'e', 'c', ' ', 'x'] "KODE") "KODE" =
      .ok {key := keyBk, password := some ['s', 'e', 'c', ' ', 'x']} :=
  C9_roundtrip keyBk ['s', 'e', 'c', ' ', 'x'] "KODE" (by decide)

/-- Counterexample to C9 as stated: for the passphrase "a: b" the
restored password is "a", not the original passphrase, because
`parseMetaInfo` splits the preamble row at every colon-whitespace
sequence and keeps only the first field after the key. -/
theorem C9_counterexample :
    restorePrivateKeyBackup
        (createPrivateKeyBackup keyBk ['a', ':', ' ', 'b'] "KODE") "KODE" =
      .ok {key := keyBk, password := some ['a']} ∧
    (['a'] : List Char) ≠ ['a', ':', ' ', 'b'] := by
  refine ⟨by rfl, by decide⟩

/-- `getKeysForId(fingerprint)` as called by the import paths with a
40-character fingerprint: the first key of the store (public collection
first) whose primary fingerprint matches, mirroring the openpgp.js
key-array lookup that resolves long ids against the primary
fingerprint. -/
def getKeysForFpr (store : KeyStore) (fpr : String) : Option PKey :=
  (store.publicKeys ++ store.privateKeys).find? (fun k => k.fpr == fpr)

/-- `getKeysForId(id, deep)` (KeyStoreBase, modelled from the spec): all
keys matching a key id, optionally also matching subkey ids. -/
def getKeysForId (store : KeyStore) (id : String) (deep : Bool) : List PKey :=
  (store.publicKeys ++ store.privateKeys).filter
    (fun k => k.keyId == id || (deep && k.subKeyIds.contains id))

/-- `checkKeyId(sourceKey, keyring)` from key.js: the import is rejected
when the primary key id collides with an existing subkey id, or one of
the imported subkey ids collides with an existing primary key id or
with a subkey id of a key with a different primary key id; `true` means
no conflict. -/
def checkKeyId (sourceKey : PKey) (store : KeyStore) : Bool :=
  (getKeysForId store sourceKey.keyId true).all
    (fun key => key.keyId == sourceKey.keyId) &&
  sourceKey.subKeyIds.all (fun subKeyId =>
    (getKeysForId store subKeyId true).all
      (fun key => !(key.keyId == subKeyId) && key.keyId == sourceKey.keyId))

/-- `key.update(srcKey)` at the openpgp.js boundary: merge the
certifications and the subkeys of a same-fingerprint source key that
are not yet present. -/
def keyUpdate (key srcKey : PKey) : PKey :=
  {key with
    certs := key.certs ++ srcKey.certs.filter (fun c => !key.certs.contains c),
    subKeyIds := key.subKeyIds ++ srcKey.subKeyIds.filter (fun i => !key.subKeyIds.contains i)}

/-- Replace the first element satisfying the predicate. -/
def replaceFirst {α : Type} (p : α → Bool) (g : α → α) : List α → List α
  | [] => []
  | x :: xs => if p x then g x :: xs else x :: replaceFirst p g xs

/-- Mutation of the key object found by `getKeysForFpr` in place: the
first fingerprint match, in the public collection when one exists
there, otherwise in the private collection. -/
def updateFirstInStore (store : KeyStore) (fpr : String) (g : PKey → PKey) : KeyStore :=
  if store.publicKeys.any (fun k => k.fpr == fpr) then
    {store with publicKeys := replaceFirst (fun k => k.fpr == fpr) g store.publicKeys}
  else
    {store with privateKeys := replaceFirst (fun k => k.fpr == fpr) g store.privateKeys}

/-- Remove the first element satisfying the predicate
(`publicKeys.removeForId(fingerprint)`). -/
def removeFirst {α : Type} (p : α → Bool) : List α → List α
  | [] => []
  | x :: xs => if p x then xs else x :: removeFirst p xs

/-- The body of the public-key import for one parsed key once
`checkKeyId` has passed (KeyringLocal.importPublicKey 108-129): merge
into the existing key of the same fingerprint, or append to the public
collection; the second component is the recorded change-log entry
type. -/
def importPublicKeyCore (store : KeyStore) (pubKey : PKey) : KeyStore × ChangeType :=
  match getKeysForFpr store pubKey.fpr with
  | some _ =>
    (updateFirstInStore store pubKey.fpr (fun key => keyUpdate key pubKey), ChangeType.UPDATE)
  | none =>
    ({store with publicKeys := store.publicKeys ++ [pubKey]}, ChangeType.INSERT)

/-- The result of `openpgp.key.readArmored` at the parser boundary: the
parse errors and the successfully parsed keys of one armored blob. -/
structure Armored where
  err : List String := []
  keys : List PKey := []
deriving DecidableEq

/-- One import candidate `{type, armored}`. -/
structure Candidate where
  typ : String
  armored : Armored
deriving DecidableEq

/-- One entry of the import result list `{type, message}`. -/
structure RMsg where
  typ : String
  msg : String
deriving DecidableEq

/-- The keyring state threaded through an import: the KeyStore, the
pending sync change log and the primary-key attribute. -/
structure ImpState where
  store : KeyStore
  pending : List (String × LogEntry) := []
  attr : String := ""
deriving DecidableEq

/-- `sync.add(fingerprint, type)` (keyringSync, modelled from the spec):
upsert the fingerprint's entry, timestamped now, overwriting any prior
pending entry. -/
def syncAdd (pending : List (String × LogEntry)) (fpr : String) (t : ChangeType)
    (now : Nat) : List (String × LogEntry) :=
  setKV pending fpr ⟨t, now⟩

/-- The forEach of KeyringLocal.importPublicKey over the parsed keys of
one blob: a checkKeyId failure throws, aborting the rest of the blob
(the partial result entries are lost to the caller's catch while the
store and change-log mutations persist); otherwise the key is merged or
inserted and a success entry appended. -/
def importPublicKeyLoop (now : Nat) : List PKey → ImpState → ImpState × List RMsg × Bool
  | [], st => (st, [], false)
  | pubKey :: rest, st =>
    if checkKeyId pubKey st.store then
      let core := importPublicKeyCore st.store pubKey
      let pend2 := syncAdd st.pending pubKey.fpr core.2 now
      let st2 : ImpState := {st with store := core.1, pending := pend2}
      let res := importPublicKeyLoop now rest st2
      (res.1,
       ⟨"success", if core.2 = ChangeType.UPDATE then "key_import_public_update"
                   else "key_import_public_success"⟩ :: res.2.1,
       res.2.2)
    else
      (st, [], true)

/-- The forEach of KeyringLocal.importPrivateKey over the parsed keys of
one blob: a same-fingerprint public-only entry is promoted into the
private collection with its certifications merged into the imported
key, an existing private entry is merged in place, a fresh fingerprint
is appended to the private collection. -/
def importPrivateKeyLoop (now : Nat) : List PKey → ImpState → ImpState × List RMsg × Bool
  | [], st => (st, [], false)
  | privKey :: rest, st =>
    if checkKeyId privKey st.store then
      match getKeysForFpr st.store privKey.fpr with
      | some key =>
        if key.isPriv = false then
          let merged := keyUpdate privKey key
          let pub2 := removeFirst (fun k => k.fpr == privKey.fpr) st.store.publicKeys
          let priv2 := st.store.privateKeys ++ [merged]
          let pend2 := syncAdd st.pending privKey.fpr ChangeType.UPDATE now
          let st2 : ImpState := {store := {publicKeys := pub2, privateKeys := priv2}, pending := pend2, attr := st.attr}
          let res := importPrivateKeyLoop now rest st2
          (res.1, ⟨"success", "key_import_private_exists"⟩ :: res.2.1, res.2.2)
        else
          let store2 := updateFirstInStore st.store privKey.fpr (fun k => keyUpdate k privKey)
          let pend2 := syncAdd st.pending privKey.fpr ChangeType.UPDATE now
          let st2 : ImpState := {st with store := store2, pending := pend2}
          let res := importPrivateKeyLoop now rest st2
          (res.1, ⟨"success", "key_import_private_update"⟩ :: res.2.1, res.2.2)
      | none =>
        let priv2 := st.store.privateKeys ++ [privKey]
        let pend2 := syncAdd st.pending privKey.fpr ChangeType.INSERT now
        let st2 : ImpState := {st with store := {st.store with privateKeys := priv2}, pending := pend2}
        let res := importPrivateKeyLoop now rest st2
        (res.1, ⟨"success", "key_import_private_success"⟩ :: res.2.1, res.2.2)
    else
      (st, [], true)

/-- Processing of one candidate inside the try/catch of
KeyringLocal.importKeys: the parse errors of the blob come first, then
the per-key results; a checkKeyId throw discards the candidate's own
entries and yields the single catch-all error entry. -/
def importCandidate (now : Nat) (st : ImpState) (c : Candidate) : ImpState × List RMsg :=
  if c.typ == "public" then
    let res := importPublicKeyLoop now c.armored.keys st
    if res.2.2 then (res.1, [⟨"error", "key_import_unable"⟩])
    else (res.1, c.armored.err.map (fun e => (⟨"error", e⟩ : RMsg)) ++ res.2.1)
  else if c.typ == "private" then
    let res := importPrivateKeyLoop now c.armored.keys st
    if res.2.2 then (res.1, [⟨"error", "key_import_unable"⟩])
    else (res.1, c.armored.err.map (fun e => (⟨"error", e⟩ : RMsg)) ++ res.2.1)
  else (st, [])

/-- The public-first sort of importKeys
(`armoredKeys.sort((a, b) => b.type.localeCompare(a.type))`), as a
stable partition. -/
def sortCandidates (candidates : List Candidate) : List Candidate :=
  candidates.filter (fun c => c.typ == "public") ++
    candidates.filter (fun c => !(c.typ == "public"))

/-- One candidate step of the importKeys fold: thread the state and
append the candidate's result entries. -/
def runStep (now : Nat) (acc : ImpState × List RMsg) (c : Candidate) :
    ImpState × List RMsg :=
  ((importCandidate now acc.1 c).1, acc.2 ++ (importCandidate now acc.1 c).2)

/-- The candidate fold of importKeys over the sorted batch. -/
def importKeysRun (now : Nat) (candidates : List Candidate) (st : ImpState) :
    ImpState × List RMsg :=
  candidates.foldl (runStep now) (st, [])

/-- The outcome of importKeys: the result list, the final in-memory
state, and whether the KeyStore was persisted and the sync change log
committed. -/
structure ImportOut where
  results : List RMsg
  state : ImpState
  stored : Bool
  committed : Bool
deriving DecidableEq

/-- `importKeys(armoredKeys)` from KeyringLocal.js: sort the candidates
public-first, process each independently, and return early without
persisting the KeyStore or committing the change log when no candidate
succeeded; otherwise persist, commit (clearing the pending log,
keyringSync modelled from the spec), and, when the keyring has no
primary key (attribute unset, hasPrimaryKey modelled from the spec)
while now owning private keys, persist the fingerprint of the first
private key of the collection as primary. -/
def commitAndPrimary (s : ImpState) : ImpState :=
  if s.attr == "" ∧ s.store.privateKeys ≠ [] then
    {s with pending := [], attr := (s.store.privateKeys.headD default).fpr}
  else
    {s with pending := []}

def importKeys (now : Nat) (candidates : List Candidate) (st : ImpState) : ImportOut :=
  if (importKeysRun now (sortCandidates candidates) st).2.any (fun m => m.typ == "success") then
    ⟨(importKeysRun now (sortCandidates candidates) st).2,
     commitAndPrimary (importKeysRun now (sortCandidates candidates) st).1,
     true, true⟩
  else
    ⟨(importKeysRun now (sortCandidates candidates) st).2,
     (importKeysRun now (sortCandidates candidates) st).1, false, false⟩

theorem keyUpdate_certs_left (key srcKey : PKey) :
    key.certs ⊆ (keyUpdate key srcKey).certs := by
  intro c hc
  exact List.mem_append_left _ hc

theorem keyUpdate_certs_right (key srcKey : PKey) :
    srcKey.certs ⊆ (keyUpdate key srcKey).certs := by
  intro c hc
  by_cases h : c ∈ key.certs
  · exact List.mem_append_left _ h
  · refine List.mem_append_right _ (List.mem_filter.mpr ⟨hc, ?_⟩)
    simp [h]

theorem keyUpdate_subKeyIds_left (key srcKey : PKey) :
    key.subKeyIds ⊆ (keyUpdate key srcKey).subKeyIds := by
  intro c hc
  exact List.mem_append_left _ hc

theorem keyUpdate_subKeyIds_right (key srcKey : PKey) :
    srcKey.subKeyIds ⊆ (keyUpdate key srcKey).subKeyIds := by
  intro c hc
  by_cases h : c ∈ key.subKeyIds
  · exact List.mem_append_left _ h
  · refine List.mem_append_right _ (List.mem_filter.mpr ⟨hc, ?_⟩)
    simp [h]

theorem removeFirst_not_mem {α : Type} (p : α → Bool) (l : List α)
    (hle : l.countP p ≤ 1) : ∀ x ∈ removeFirst p l, p x = false := by
  induction l with
  | nil =>
    intro x hx
    cases hx
  | cons y ys ih =>
    by_cases hy : p y
    · intro x hx
      rw [show removeFirst p (y :: ys) = ys from by simp [removeFirst, hy]] at hx
      have h0 : ys.countP p = 0 := by
        rw [List.countP_cons, if_pos hy] at hle
        omega
      have := List.countP_eq_zero.mp h0 x hx
      exact Bool.not_eq_true _ ▸ this
    · intro x hx
      rw [show removeFirst p (y :: ys) = y :: removeFirst p ys from by
        simp [removeFirst, hy]] at hx
      rcases List.mem_cons.mp hx with he | he
      · subst he
        exact Bool.not_eq_true _ ▸ hy
      · have hle2 : ys.countP p ≤ 1 := by
          rw [List.countP_cons, if_neg hy] at hle
          omega
        exact ih hle2 x he

/-- C7: importing a private key whose fingerprint exists only as a
public key promotes the entry: the public key is removed from the
public collection, the imported private key (with the public key's
certifications merged in) is appended to the private collection, and an
UPDATE change-log entry is recorded; afterwards the fingerprint is
absent from the public collection (assuming it occurred at most once
there) and present in the private collection. -/
theorem C7_private_promotion (now : Nat) (st : ImpState) (k ex : PKey)
    (hchk : checkKeyId k st.store = true)
    (hfind : getKeysForFpr st.store k.fpr = some ex)
    (hpub : ex.isPriv = false)
    (hcount : st.store.publicKeys.countP (fun x => x.fpr == k.fpr) ≤ 1) :
    (importPrivateKeyLoop now [k] st).2.1 = [⟨"success", "key_import_private_exists"⟩] ∧
    (importPrivateKeyLoop now [k] st).1.store.privateKeys =
      st.store.privateKeys ++ [keyUpdate k ex] ∧
    (importPrivateKeyLoop now [k] st).1.store.publicKeys =
      removeFirst (fun x => x.fpr == k.fpr) st.store.publicKeys ∧
    (∀ x ∈ (importPrivateKeyLoop now [k] st).1.store.publicKeys, x.fpr ≠ k.fpr) ∧
    k.fpr ∈ (importPrivateKeyLoop now [k] st).1.store.privateKeys.map PKey.fpr ∧
    ex.certs ⊆ (keyUpdate k ex).certs ∧ k.certs ⊆ (keyUpdate k ex).certs ∧
    (importPrivateKeyLoop now [k] st).1.pending.lookup k.fpr =
      some ⟨ChangeType.UPDATE, now⟩ := by
  have hres : importPrivateKeyLoop now [k] st =
      ({store := {publicKeys := removeFirst (fun x => x.fpr == k.fpr) st.store.publicKeys,
                  privateKeys := st.store.privateKeys ++ [keyUpdate k ex]},
        pending := syncAdd st.pending k.fpr ChangeType.UPDATE now,
        attr := st.attr},
       [⟨"success", "key_import_private_exists"⟩], false) := by
    unfold importPrivateKeyLoop
    rw [if_pos hchk]
    simp only [hfind]
    rw [if_pos hpub]
    rfl
  rw [hres]
  refine ⟨rfl, rfl, rfl, ?_, ?_, keyUpdate_certs_right k ex, keyUpdate_certs_left k ex, ?_⟩
  · intro x hx hfpr
    have := removeFirst_not_mem (fun x => x.fpr == k.fpr) st.store.publicKeys hcount x hx
    simp [hfpr] at this
  · refine List.mem_map.mpr ⟨keyUpdate k ex, ?_, rfl⟩
    exact List.mem_append_right _ (List.mem_singleton.mpr rfl)
  · exact lookup_setKV_same _ _ _

theorem importKeysRun_acc (now : Nat) (cs : List Candidate) (st : ImpState)
    (rs : List RMsg) :
    cs.foldl (runStep now) (st, rs) =
      ((importKeysRun now cs st).1, rs ++ (importKeysRun now cs st).2) := by
  induction cs generalizing st rs with
  | nil => simp [importKeysRun]
  | cons c cs2 ih =>
    have h1 : (c :: cs2).foldl (runStep now) (st, rs) =
        cs2.foldl (runStep now)
          ((importCandidate now st c).1, rs ++ (importCandidate now st c).2) := rfl
    have h2 : importKeysRun now (c :: cs2) st =
        cs2.foldl (runStep now)
          ((importCandidate now st c).1, (importCandidate now st c).2) := rfl
    rw [h1, h2, ih, ih]
    simp [List.append_assoc]

/-- Concrete import batch for the C5 scenario: a valid public key, a
malformed blob, a valid public key. -/
def keyImpA : PKey := {fpr := "fa", keyId := "ida"}

def keyImpB : PKey := {fpr := "fb", keyId := "idb"}

def candA : Candidate := ⟨"public", {err := [], keys := [keyImpA]}⟩

def candBad : Candidate := ⟨"public", {err := ["parse error"], keys := []}⟩

def candB : Candidate := ⟨"public", {err := [], keys := [keyImpB]}⟩

def impState0 : ImpState := {store := {}}

/-- C5: each candidate is processed independently — a candidate that
fails to parse contributes exactly its error entry and leaves the state
unchanged, and the fold continues with the remaining candidates; for
the batch [valid public A, malformed blob, valid public B] the result
is success, error, success and both keys are in the store. -/
theorem C5_batch_error_isolation :
    (∀ (now : Nat) (st : ImpState) (e : String),
      importCandidate now st ⟨"public", {err := [e], keys := []}⟩ = (st, [⟨"error", e⟩])) ∧
    (∀ (now : Nat) (st : ImpState) (e : String) (cs : List Candidate),
      importKeysRun now (⟨"public", {err := [e], keys := []}⟩ :: cs) st =
        ((importKeysRun now cs st).1, ⟨"error", e⟩ :: (importKeysRun now cs st).2)) ∧
    (importKeys 5 [candA, candBad, candB] impState0).results.map RMsg.typ =
      ["success", "error", "success"] ∧
    keyImpA ∈ (importKeys 5 [candA, candBad, candB] impState0).state.store.publicKeys ∧
    keyImpB ∈ (importKeys 5 [candA, candBad, candB] impState0).state.store.publicKeys := by
  refine ⟨fun now st e => rfl, ?_, by decide, by decide, by decide⟩
  intro now st e cs
  have h1 : importKeysRun now (⟨"public", {err := [e], keys := []}⟩ :: cs) st =
      cs.foldl (runStep now) (st, [⟨"error", e⟩]) := rfl
  rw [h1, importKeysRun_acc now cs st [⟨"error", e⟩]]
  rfl

/-- C6 (amended): when no candidate succeeded, importKeys returns the
result list with the run's state, without persisting the KeyStore or
committing the change log; when at least one succeeded, the KeyStore is
persisted, the change log committed (pending entries cleared), and if
the keyring has no primary key while now owning private keys, the
fingerprint of the **first private key of the collection** is persisted
as primary (this is the first newly-imported private key only when no
private key existed before the import). -/
theorem C6_importKeys_commit (now : Nat) (candidates : List Candidate) (st : ImpState) :
    ((importKeysRun now (sortCandidates candidates) st).2.any
        (fun m => m.typ == "success") = false →
      importKeys now candidates st =
        ⟨(importKeysRun now (sortCandidates candidates) st).2,
         (importKeysRun now (sortCandidates candidates) st).1, false, false⟩) ∧
    ((importKeysRun now (sortCandidates candidates) st).2.any
        (fun m => m.typ == "success") = true →
      (importKeys now candidates st).stored = true ∧
      (importKeys now candidates st).committed = true ∧
      (importKeys now candidates st).state.pending = [] ∧
      ((importKeysRun now (sortCandidates candidates) st).1.attr = "" →
        (importKeysRun now (sortCandidates candidates) st).1.store.privateKeys ≠ [] →
        (importKeys now candidates st).state.attr =
          (((importKeysRun now (sortCandidates candidates) st).1.store.privateKeys.headD
            default).fpr))) := by
  constructor
  · intro h
    unfold importKeys
    rw [h, if_neg Bool.false_ne_true]
  · intro h
    unfold importKeys
    rw [h, if_pos rfl]
    refine ⟨rfl, rfl, ?_, ?_⟩
    · show (commitAndPrimary _).pending = []
      unfold commitAndPrimary
      by_cases hc : (importKeysRun now (sortCandidates candidates) st).1.attr == "" ∧
          (importKeysRun now (sortCandidates candidates) st).1.store.privateKeys ≠ []
      · rw [if_pos hc]
      · rw [if_neg hc]
    · intro h1 h2
      show (commitAndPrimary _).attr = _
      unfold commitAndPrimary
      rw [if_pos ⟨by simp [h1], h2⟩]

/-- Concrete states refuting the primary-selection half of C6. -/
def keyOldPriv : PKey := {fpr := "OLD", keyId := "kold", isPriv := true}

def keyNewPriv : PKey := {fpr := "NEW", keyId := "knew", isPriv := true}

def impStateOld : ImpState :=
  {store := {publicKeys := [], privateKeys := [keyOldPriv]}, pending := [], attr := ""}

def candNew : Candidate := ⟨"private", {err := [], keys := [keyNewPriv]}⟩

/-- Counterexample to C6 as stated: importing the private key NEW into a
keyring that already owns the private key OLD but has no primary-key
attribute makes OLD — the first key of the collection — primary, not
the first newly-imported private key NEW, which the claim requires. -/
theorem C6_counterexample :
    (importKeys 5 [candNew] impStateOld).state.attr = "OLD" ∧
    keyNewPriv ∈ (importKeys 5 [candNew] impStateOld).state.store.privateKeys ∧
    keyOldPriv ∈ impStateOld.store.privateKeys ∧
    keyNewPriv.fpr = "NEW" ∧ ("OLD" : String) ≠ "NEW" := by
  refine ⟨by rfl, by decide, by decide, by rfl, by decide⟩

def candNewOnEmpty : Candidate := ⟨"private", {err := [], keys := [keyNewPriv]}⟩

def impStateEmpty : ImpState := {store := {}}

/-- Witness for C6: a batch with no success is returned unpersisted, and
a successful private-key import into an empty keyring commits and makes
the imported key primary. -/
theorem C6_witness :
    importKeys 5 [candBad] impStateEmpty =
      ⟨[⟨"error", "parse error"⟩],
       (importKeysRun 5 (sortCandidates [candBad]) impStateEmpty).1, false, false⟩ ∧
    (importKeys 5 [candNewOnEmpty] impStateEmpty).stored = true ∧
    (importKeys 5 [candNewOnEmpty] impStateEmpty).committed = true ∧
    (importKeys 5 [candNewOnEmpty] impStateEmpty).state.pending = [] ∧
    (importKeys 5 [candNewOnEmpty] impStateEmpty).state.attr = "NEW" := by
  have h1 := (C6_importKeys_commit 5 [candBad] impStateEmpty).1 (by decide)
  have h2 := (C6_importKeys_commit 5 [candNewOnEmpty] impStateEmpty).2 (by decide)
  refine ⟨h1, h2.1, h2.2.1, h2.2.2.1, ?_⟩
  have h3 := h2.2.2.2 (by decide) (by decide)
  rw [h3]
  rfl

/-- Concrete promotion scenario for C7. -/
def keyPubOnly : PKey := {fpr := "pp", keyId := "kpp", isPriv := false, certs := ["c1"]}

def keyPrivNew : PKey := {fpr := "pp", keyId := "kpp", isPriv := true, certs := ["c2"]}

def impStatePromote : ImpState := {store := {publicKeys := [keyPubOnly], privateKeys := []}}

/-- Witness for C7: importing the private form of a public-only key
empties the public collection, stores the merged private key, and logs
an UPDATE entry. -/
theorem C7_witness :
    (importPrivateKeyLoop 5 [keyPrivNew] impStatePromote).1.store.publicKeys = [] ∧
    (importPrivateKeyLoop 5 [keyPrivNew] impStatePromote).1.store.privateKeys =
      [keyUpdate keyPrivNew keyPubOnly] ∧
    (importPrivateKeyLoop 5 [keyPrivNew] impStatePromote).1.pending.lookup "pp" =
      some ⟨ChangeType.UPDATE, 5⟩ := by
  have h := C7_private_promotion 5 impStatePromote keyPrivNew keyPubOnly
    (by decide) (by decide) (by decide) (by decide)
  refine ⟨?_, ?_, h.2.2.2.2.2.2.2⟩
  · rw [h.2.2.1]
    rfl
  · rw [h.2.1]
    rfl

/-- A decoded inbound sync payload as applied by the sync handler: the
parsed public keys of the INSERT entries and the fingerprints of the
DELETE entries (spec section 4.3, inbound payload merge). -/
structure SyncMerge where
  insertKeys : List PKey := []
  deleted : List String := []
deriving DecidableEq

/-- Application of one INSERT entry of an inbound payload through the
normal public-key import path: checkKeyId validation, then merge or
insert; a structural conflict yields an error entry for that candidate
only, leaving the store unchanged. -/
def importSyncKey (store : KeyStore) (k : PKey) : KeyStore :=
  if checkKeyId k store then (importPublicKeyCore store k).1 else store

/-- Application of one DELETE entry of an inbound payload: remove the
local key if present. -/
def deleteOne (store : KeyStore) (f : String) : KeyStore :=
  {publicKeys := store.publicKeys.filter (fun k => !(k.fpr == f)),
   privateKeys := store.privateKeys.filter (fun k => !(k.fpr == f))}

/-- Application of a whole inbound payload: the INSERT entries through
the import path, then the DELETE entries. -/
def applySyncPayload (store : KeyStore) (p : SyncMerge) : KeyStore :=
  p.deleted.foldl deleteOne (p.insertKeys.foldl importSyncKey store)

/-- Concrete state refuting idempotence as universally stated: the
local key S carries the payload key's primary key id among its subkey
ids, so the first application rejects the insert (checkKeyId) and then
deletes S, while the second application, with S gone, inserts the
key. -/
def keySSub : PKey := {fpr := "S", keyId := "SSSS", subKeyIds := ["AAAA"]}

def keyK2 : PKey := {fpr := "K2", keyId := "AAAA"}

def storeCx : KeyStore := {publicKeys := [keySSub]}

def payloadCx : SyncMerge := {insertKeys := [keyK2], deleted := ["S"]}

/-- Counterexample to C2 as stated: applying the same well-formed
inbound payload (disjoint insert and delete fingerprints) twice does
not equal applying it once. -/
theorem C2_counterexample :
    applySyncPayload (applySyncPayload storeCx payloadCx) payloadCx ≠
      applySyncPayload storeCx payloadCx := by decide

/-- The identifiers carried by a key: its primary key id and its subkey
ids. -/
def ids (k : PKey) : List String := k.keyId :: k.subKeyIds

/-- All keys in scope of a payload application: the store's two
collections and the payload's insert keys. -/
def allKeys (store : KeyStore) (p : SyncMerge) : List PKey :=
  store.publicKeys ++ store.privateKeys ++ p.insertKeys

/-- Structural consistency of the keys in scope: distinct fingerprints
never share a key id or subkey id, keys of one fingerprint agree on the
key id, and a fingerprint's key id never occurs among its subkey
ids. -/
def IdsSeparated (all : List PKey) : Prop :=
  (∀ k ∈ all, ∀ k2 ∈ all, k.fpr ≠ k2.fpr → ∀ i ∈ ids k, i ∉ ids k2) ∧
  (∀ k ∈ all, ∀ k2 ∈ all, k.fpr = k2.fpr → k.keyId = k2.keyId) ∧
  (∀ k ∈ all, ∀ k2 ∈ all, k.fpr = k2.fpr → k.keyId ∉ k2.subKeyIds)

/-- A key derived from the scope: its key id comes from a scope key of
the same fingerprint, and each of its subkey ids does as well. -/
def classMem (all : List PKey) (K : PKey) : Prop :=
  (∃ k0 ∈ all, k0.fpr = K.fpr ∧ k0.keyId = K.keyId) ∧
  (∀ i ∈ K.subKeyIds, ∃ k1 ∈ all, k1.fpr = K.fpr ∧ i ∈ k1.subKeyIds)

/-- Every key of the store is derived from the scope. -/
def StoreInClass (all : List PKey) (T : KeyStore) : Prop :=
  (∀ K ∈ T.publicKeys, classMem all K) ∧ (∀ K ∈ T.privateKeys, classMem all K)

/-- Content growth between two versions of a key: same fingerprint, no
certification or subkey lost. -/
def keyLe (a b : PKey) : Prop :=
  a.fpr = b.fpr ∧ a.certs ⊆ b.certs ∧ a.subKeyIds ⊆ b.subKeyIds

theorem keyLe_refl (a : PKey) : keyLe a a :=
  ⟨rfl, fun _ h => h, fun _ h => h⟩

theorem keyLe_trans {a b c : PKey} (h1 : keyLe a b) (h2 : keyLe b c) : keyLe a c :=
  ⟨h1.1.trans h2.1, fun _x hx => h2.2.1 (h1.2.1 hx), fun _x hx => h2.2.2 (h1.2.2 hx)⟩

theorem keyUpdate_le_left (K k : PKey) : keyLe K (keyUpdate K k) :=
  ⟨rfl, keyUpdate_certs_left K k, keyUpdate_subKeyIds_left K k⟩

theorem keyUpdate_le_right (K k : PKey) (hf : k.fpr = K.fpr) : keyLe k (keyUpdate K k) :=
  ⟨hf, keyUpdate_certs_right K k, keyUpdate_subKeyIds_right K k⟩

theorem keyUpdate_eq_self (K k : PKey) (hc : k.certs ⊆ K.certs)
    (hs : k.subKeyIds ⊆ K.subKeyIds) : keyUpdate K k = K := by
  have h1 : k.certs.filter (fun c => !K.certs.contains c) = [] := by
    apply List.filter_eq_nil_iff.mpr
    intro c hcmem
    simp [hc hcmem]
  have h2 : k.subKeyIds.filter (fun i => !K.subKeyIds.contains i) = [] := by
    apply List.filter_eq_nil_iff.mpr
    intro i himem
    simp [hs himem]
  unfold keyUpdate
  rw [h1, h2, List.append_nil, List.append_nil]

/-- The delete fold acting on one collection. -/
def delList (D : List String) (l : List PKey) : List PKey :=
  D.foldl (fun l f => l.filter (fun k => !(k.fpr == f))) l

theorem foldl_deleteOne_eq (D : List String) (T : KeyStore) :
    D.foldl deleteOne T = {publicKeys := delList D T.publicKeys,
                           privateKeys := delList D T.privateKeys} := by
  induction D generalizing T with
  | nil => rfl
  | cons f D2 ih =>
    rw [List.foldl_cons]
    rw [ih]
    rfl

theorem mem_delList {D : List String} {l : List PKey} {x : PKey} (hx : x ∈ delList D l) :
    x ∈ l ∧ ∀ f ∈ D, x.fpr ≠ f := by
  induction D generalizing l with
  | nil => exact ⟨hx, by simp⟩
  | cons f D2 ih =>
    have h2 := ih (l := l.filter (fun k => !(k.fpr == f))) hx
    have h3 := List.mem_filter.mp h2.1
    refine ⟨h3.1, ?_⟩
    intro g hg
    rcases List.mem_cons.mp hg with he | he
    · subst he
      have := h3.2
      intro hfe
      simp [hfe] at this
    · exact h2.2 g he

theorem delList_eq_self (D : List String) (l : List PKey)
    (h : ∀ x ∈ l, ∀ f ∈ D, x.fpr ≠ f) : delList D l = l := by
  induction D generalizing l with
  | nil => rfl
  | cons f D2 ih =>
    rw [delList, List.foldl_cons]
    rw [show l.filter (fun k => !(k.fpr == f)) = l from List.filter_eq_self.mpr
      (fun x hx => by simp [h x hx f (List.mem_cons_self _ _)])]
    exact ih l (fun x hx g hg => h x hx g (List.mem_cons_of_mem _ hg))

theorem delList_eq_nil (D : List String) (l : List PKey)
    (h : ∀ x ∈ l, ∃ f ∈ D, x.fpr = f) : delList D l = [] := by
  apply List.eq_nil_iff_forall_not_mem.mpr
  intro x hx
  obtain ⟨hmem, hne⟩ := mem_delList hx
  obtain ⟨f, hf, hfe⟩ := h x hmem
  exact hne f hf hfe

theorem delList_append (D : List String) (A B : List PKey) :
    delList D (A ++ B) = delList D A ++ delList D B := by
  induction D generalizing A B with
  | nil => rfl
  | cons f D2 ih =>
    rw [delList, List.foldl_cons]
    rw [List.filter_append]
    exact ih _ _

theorem contains_true_iff_mem (l : List String) (a : String) :
    l.contains a = true ↔ a ∈ l := List.elem_iff

theorem find?_middle_block {α : Type} (p : α → Bool) (A E B : List α)
    (hE : ∀ x ∈ E, p x = false) :
    ((A ++ E) ++ B).find? p = (A ++ B).find? p := by
  rw [List.find?_append, List.find?_append, List.find?_append]
  rw [show E.find? p = none from List.find?_eq_none.mpr
    (fun x hx => by simp [hE x hx])]
  rw [Option.or_none]

theorem replaceFirst_append_left {α : Type} (p : α → Bool) (g : α → α) (A B : List α)
    (hA : ∀ a ∈ A, p a = false) :
    replaceFirst p g (A ++ B) = A ++ replaceFirst p g B := by
  induction A with
  | nil => rfl
  | cons x xs ih =>
    rw [List.cons_append, replaceFirst]
    rw [if_neg (by simp [hA x (List.mem_cons_self _ _)])]
    rw [ih (fun a ha => hA a (List.mem_cons_of_mem _ ha))]
    rfl

theorem replaceFirst_id {α : Type} (p : α → Bool) (g : α → α) (l : List α) (a : α)
    (hfind : l.find? p = some a) (hga : g a = a) : replaceFirst p g l = l := by
  induction l with
  | nil => cases hfind
  | cons x xs ih =>
    by_cases hx : p x
    · rw [List.find?_cons_of_pos _ hx] at hfind
      cases hfind
      rw [replaceFirst, if_pos hx, hga]
    · rw [List.find?_cons_of_neg _ hx] at hfind
      rw [replaceFirst, if_neg hx, ih hfind]

theorem mem_replaceFirst {α : Type} (p : α → Bool) (g : α → α) (l : List α) (x : α)
    (hx : x ∈ replaceFirst p g l) :
    x ∈ l ∨ ∃ a ∈ l, p a = true ∧ x = g a := by
  induction l with
  | nil => cases hx
  | cons y ys ih =>
    by_cases hy : p y
    · rw [replaceFirst, if_pos hy] at hx
      rcases List.mem_cons.mp hx with he | he
      · exact Or.inr ⟨y, List.mem_cons_self _ _, hy, he⟩
      · exact Or.inl (List.mem_cons_of_mem _ he)
    · rw [replaceFirst, if_neg hy] at hx
      rcases List.mem_cons.mp hx with he | he
      · exact Or.inl (he ▸ List.mem_cons_self _ _)
      · rcases ih he with h1 | ⟨a, ha, hpa, hxa⟩
        · exact Or.inl (List.mem_cons_of_mem _ h1)
        · exact Or.inr ⟨a, List.mem_cons_of_mem _ ha, hpa, hxa⟩

theorem find?_replaceFirst_same {α : Type} (p : α → Bool) (g : α → α) (l : List α)
    (K : α) (h : l.find? p = some K) (hgK : p (g K) = true) :
    (replaceFirst p g l).find? p = some (g K) := by
  induction l with
  | nil => cases h
  | cons x xs ih =>
    by_cases hx : p x
    · rw [List.find?_cons_of_pos _ hx] at h
      cases h
      rw [replaceFirst, if_pos hx]
      exact List.find?_cons_of_pos _ hgK
    · rw [List.find?_cons_of_neg _ hx] at h
      rw [replaceFirst, if_neg hx]
      rw [List.find?_cons_of_neg _ hx]
      exact ih h

theorem find?_replaceFirst_otherFpr (f f2 : String) (g : PKey → PKey)
    (hg : ∀ x, (g x).fpr = x.fpr) (l : List PKey) (hne : f ≠ f2) :
    (replaceFirst (fun k => k.fpr == f2) g l).find? (fun k => k.fpr == f) =
      l.find? (fun k => k.fpr == f) := by
  induction l with
  | nil => rfl
  | cons x xs ih =>
    by_cases h2 : x.fpr = f2
    · rw [replaceFirst, if_pos (by simp [h2])]
      have hgx : ((g x).fpr == f) = false := by
        rw [hg x, h2]
        exact beq_eq_false_iff_ne.mpr (Ne.symm hne)
      have hxf : (x.fpr == f) = false := by
        rw [h2]
        exact beq_eq_false_iff_ne.mpr (Ne.symm hne)
      rw [List.find?_cons_of_neg _ (by simp [hgx]), List.find?_cons_of_neg _ (by simp [hxf])]
    · rw [replaceFirst, if_neg (by simp [h2])]
      by_cases hf : x.fpr = f
      · rw [List.find?_cons_of_pos _ (by simp [hf]), List.find?_cons_of_pos _ (by simp [hf])]
      · rw [List.find?_cons_of_neg _ (by simp [hf]), List.find?_cons_of_neg _ (by simp [hf])]
        exact ih

theorem getKeysForFpr_eq (T : KeyStore) (f : String) :
    getKeysForFpr T f =
      ((T.publicKeys.find? (fun k => k.fpr == f)).or
        (T.privateKeys.find? (fun k => k.fpr == f))) := by
  unfold getKeysForFpr
  rw [List.find?_append]

theorem getKeysForFpr_updateFirst_same (T : KeyStore) (f : String) (g : PKey → PKey)
    (K : PKey) (hg : ∀ x, (g x).fpr = x.fpr) (h : getKeysForFpr T f = some K) :
    getKeysForFpr (updateFirstInStore T f g) f = some (g K) := by
  have hpK : (K.fpr == f) = true := by
    have h2 : ((T.publicKeys ++ T.privateKeys).find? (fun k => k.fpr == f)) = some K := h
    have h3 := List.find?_some h2
    exact h3
  have hpgK : ((g K).fpr == f) = true := by
    rw [hg K]
    exact hpK
  unfold updateFirstInStore
  by_cases hany : T.publicKeys.any (fun k => k.fpr == f)
  · rw [if_pos hany]
    rw [getKeysForFpr_eq] at h
    cases hpub : T.publicKeys.find? (fun k => k.fpr == f) with
    | none =>
      obtain ⟨x, hx, hpx⟩ := List.any_eq_true.mp hany
      exact absurd hpx (List.find?_eq_none.mp hpub x hx)
    | some Kp =>
      rw [hpub] at h
      simp only [Option.or_some] at h
      cases h
      rw [getKeysForFpr_eq]
      show ((replaceFirst (fun k => k.fpr == f) g T.publicKeys).find? (fun k => k.fpr == f)).or
        (T.privateKeys.find? (fun k => k.fpr == f)) = some (g K)
      rw [find?_replaceFirst_same _ g _ K hpub hpgK]
      rfl
  · rw [if_neg hany]
    have hall := List.any_eq_false.mp (Bool.not_eq_true _ ▸ hany)
    have hpub : T.publicKeys.find? (fun k => k.fpr == f) = none :=
      List.find?_eq_none.mpr hall
    rw [getKeysForFpr_eq, hpub, Option.none_or] at h
    rw [getKeysForFpr_eq]
    show (T.publicKeys.find? (fun k => k.fpr == f)).or
      ((replaceFirst (fun k => k.fpr == f) g T.privateKeys).find? (fun k => k.fpr == f)) =
      some (g K)
    rw [hpub, Option.none_or]
    exact find?_replaceFirst_same _ g _ K h hpgK

theorem getKeysForFpr_updateFirst_ne (T : KeyStore) (f2 : String) (g : PKey → PKey)
    (f : String) (hg : ∀ x, (g x).fpr = x.fpr) (hne : f ≠ f2) :
    getKeysForFpr (updateFirstInStore T f2 g) f = getKeysForFpr T f := by
  unfold updateFirstInStore
  by_cases hany : T.publicKeys.any (fun k => k.fpr == f2)
  · rw [if_pos hany]
    rw [getKeysForFpr_eq, getKeysForFpr_eq]
    show ((replaceFirst (fun k => k.fpr == f2) g T.publicKeys).find? (fun k => k.fpr == f)).or
      (T.privateKeys.find? (fun k => k.fpr == f)) = _
    rw [find?_replaceFirst_otherFpr f f2 g hg _ hne]
  · rw [if_neg hany]
    rw [getKeysForFpr_eq, getKeysForFpr_eq]
    show (T.publicKeys.find? (fun k => k.fpr == f)).or
      ((replaceFirst (fun k => k.fpr == f2) g T.privateKeys).find? (fun k => k.fpr == f)) = _
    rw [find?_replaceFirst_otherFpr f f2 g hg _ hne]

theorem updateFirstInStore_id (T : KeyStore) (f : String) (g : PKey → PKey) (K : PKey)
    (hfind : getKeysForFpr T f = some K) (hgK : g K = K) :
    updateFirstInStore T f g = T := by
  unfold updateFirstInStore
  by_cases hany : T.publicKeys.any (fun k => k.fpr == f)
  · rw [if_pos hany]
    rw [getKeysForFpr_eq] at hfind
    cases hpub : T.publicKeys.find? (fun k => k.fpr == f) with
    | none =>
      obtain ⟨x, hx, hpx⟩ := List.any_eq_true.mp hany
      exact absurd hpx (List.find?_eq_none.mp hpub x hx)
    | some Kp =>
      rw [hpub] at hfind
      simp only [Option.or_some] at hfind
      cases hfind
      rw [replaceFirst_id _ g _ K hpub hgK]
  · rw [if_neg hany]
    have hall := List.any_eq_false.mp (Bool.not_eq_true _ ▸ hany)
    have hpub : T.publicKeys.find? (fun k => k.fpr == f) = none :=
      List.find?_eq_none.mpr hall
    rw [getKeysForFpr_eq, hpub, Option.none_or] at hfind
    rw [replaceFirst_id _ g _ K hfind hgK]

theorem getKeysForFpr_push_ne (T : KeyStore) (k : PKey) (f : String) (hne : k.fpr ≠ f) :
    getKeysForFpr {T with publicKeys := T.publicKeys ++ [k]} f = getKeysForFpr T f := by
  show ((T.publicKeys ++ [k]) ++ T.privateKeys).find? (fun x => x.fpr == f) = _
  rw [find?_middle_block _ T.publicKeys [k] T.privateKeys
    (by intro x hx; rw [List.mem_singleton.mp hx]; simp [hne])]
  rfl

theorem getKeysForFpr_push_self (T : KeyStore) (k : PKey)
    (h : getKeysForFpr T k.fpr = none) :
    getKeysForFpr {T with publicKeys := T.publicKeys ++ [k]} k.fpr = some k := by
  rw [getKeysForFpr_eq] at h
  obtain ⟨hpub, hpriv⟩ := Option.or_eq_none.mp h
  show ((T.publicKeys ++ [k]) ++ T.privateKeys).find? (fun x => x.fpr == k.fpr) = some k
  rw [List.find?_append, List.find?_append]
  rw [hpub, hpriv]
  rw [show ([k].find? (fun x => x.fpr == k.fpr)) = some k from
    List.find?_cons_of_pos _ (by simp)]
  rfl

theorem classMem_of_mem (all : List PKey) (K : PKey) (hK : K ∈ all) : classMem all K :=
  ⟨⟨K, hK, rfl, rfl⟩, fun _i hi => ⟨K, hK, rfl, hi⟩⟩

theorem ids_of_classMem (all : List PKey) (K : PKey) (i : String)
    (hc : classMem all K) (hi : i ∈ ids K) :
    ∃ kw ∈ all, kw.fpr = K.fpr ∧ i ∈ ids kw := by
  rcases List.mem_cons.mp hi with he | he
  · obtain ⟨k0, hk0, hf0, hid0⟩ := hc.1
    exact ⟨k0, hk0, hf0, by rw [he, ← hid0]; exact List.mem_cons_self _ _⟩
  · obtain ⟨k1, hk1, hf1, hs1⟩ := hc.2 i he
    exact ⟨k1, hk1, hf1, List.mem_cons_of_mem _ hs1⟩

theorem sep_fpr_eq (all : List PKey) (hsep : IdsSeparated all) (kw kz : PKey)
    (hw : kw ∈ all) (hz : kz ∈ all) (i : String) (hiw : i ∈ ids kw) (hiz : i ∈ ids kz) :
    kw.fpr = kz.fpr := by
  by_contra hne
  exact hsep.1 kw hw kz hz hne i hiw hiz

theorem classMem_keyId (all : List PKey) (hsep : IdsSeparated all) (K k : PKey)
    (hc : classMem all K) (hk : k ∈ all) (hf : k.fpr = K.fpr) : K.keyId = k.keyId := by
  obtain ⟨k0, hk0, hf0, hid0⟩ := hc.1
  rw [← hid0]
  exact hsep.2.1 k0 hk0 k hk (by rw [hf0, hf])

theorem classMem_keyId_not_sub (all : List PKey) (hsep : IdsSeparated all) (K k : PKey)
    (hc : classMem all K) (hk : k ∈ all) (hf : k.fpr = K.fpr) :
    k.keyId ∉ K.subKeyIds := by
  intro hmem
  obtain ⟨k1, hk1, hf1, hs1⟩ := hc.2 k.keyId hmem
  exact hsep.2.2 k hk k1 hk1 (by rw [hf, ← hf1]) hs1

theorem mem_getKeysForId (T : KeyStore) (id : String) (K : PKey)
    (hK : K ∈ getKeysForId T id true) :
    (K ∈ T.publicKeys ∨ K ∈ T.privateKeys) ∧ id ∈ ids K := by
  have h := List.mem_filter.mp hK
  refine ⟨List.mem_append.mp h.1, ?_⟩
  rcases (Bool.or_eq_true _ _).mp h.2 with h2 | h2
  · have he : K.keyId = id := beq_iff_eq.mp h2
    rw [← he]
    exact List.mem_cons_self _ _
  · have h3 := (Bool.and_eq_true _ _).mp h2
    exact List.mem_cons_of_mem _ ((contains_true_iff_mem _ _).mp h3.2)

theorem checkKeyId_of_separated (all : List PKey) (hsep : IdsSeparated all) (k : PKey)
    (hk : k ∈ all) (T : KeyStore) (hT : StoreInClass all T) : checkKeyId k T = true := by
  have hcls : ∀ K, (K ∈ T.publicKeys ∨ K ∈ T.privateKeys) → classMem all K := by
    intro K hK
    rcases hK with h | h
    · exact hT.1 K h
    · exact hT.2 K h
  have hfpr : ∀ K, classMem all K → ∀ i, i ∈ ids K → i ∈ ids k → K.fpr = k.fpr := by
    intro K hc i hiK hik
    obtain ⟨kw, hw, hwf, hwi⟩ := ids_of_classMem all K i hc hiK
    rw [← hwf]
    exact sep_fpr_eq all hsep kw k hw hk i hwi hik
  unfold checkKeyId
  apply (Bool.and_eq_true _ _).mpr
  constructor
  · apply List.all_eq_true.mpr
    intro K hK
    obtain ⟨hmem, hidK⟩ := mem_getKeysForId T k.keyId K hK
    have hc := hcls K hmem
    have hfe : K.fpr = k.fpr := hfpr K hc k.keyId hidK (List.mem_cons_self _ _)
    exact beq_iff_eq.mpr (classMem_keyId all hsep K k hc hk hfe.symm)
  · apply List.all_eq_true.mpr
    intro sk hsk
    apply List.all_eq_true.mpr
    intro K hK
    obtain ⟨hmem, hidK⟩ := mem_getKeysForId T sk K hK
    have hc := hcls K hmem
    have hfe : K.fpr = k.fpr := hfpr K hc sk hidK (List.mem_cons_of_mem _ hsk)
    have hkid : K.keyId = k.keyId := classMem_keyId all hsep K k hc hk hfe.symm
    apply (Bool.and_eq_true _ _).mpr
    refine ⟨?_, beq_iff_eq.mpr hkid⟩
    have hnot : k.keyId ∉ k.subKeyIds := hsep.2.2 k hk k hk rfl
    have : K.keyId ≠ sk := by
      rw [hkid]
      intro he
      exact hnot (he ▸ hsk)
    simp [this]

theorem storeInClass_subset (all : List PKey) (T T2 : KeyStore)
    (hpub : ∀ x ∈ T2.publicKeys, x ∈ T.publicKeys)
    (hpriv : ∀ x ∈ T2.privateKeys, x ∈ T.privateKeys)
    (hT : StoreInClass all T) : StoreInClass all T2 :=
  ⟨fun K hK => hT.1 K (hpub K hK), fun K hK => hT.2 K (hpriv K hK)⟩

theorem classMem_keyUpdate (all : List PKey) (a k : PKey)
    (hc : classMem all a) (hk : k ∈ all) (hf : k.fpr = a.fpr) :
    classMem all (keyUpdate a k) := by
  constructor
  · obtain ⟨k0, hk0, hf0, hid0⟩ := hc.1
    exact ⟨k0, hk0, hf0, hid0⟩
  · intro i hi
    rcases List.mem_append.mp hi with h | h
    · obtain ⟨k1, hk1, hf1, hs1⟩ := hc.2 i h
      exact ⟨k1, hk1, hf1, hs1⟩
    · have h2 := List.mem_filter.mp h
      exact ⟨k, hk, hf, h2.1⟩

theorem storeInClass_importSyncKey (all : List PKey) (T : KeyStore) (k : PKey)
    (hk : k ∈ all) (hT : StoreInClass all T) :
    StoreInClass all (importSyncKey T k) := by
  unfold importSyncKey
  by_cases hchk : checkKeyId k T
  · rw [if_pos hchk]
    unfold importPublicKeyCore
    cases hf : getKeysForFpr T k.fpr with
    | some K0 =>
      simp only
      unfold updateFirstInStore
      by_cases hany : T.publicKeys.any (fun x => x.fpr == k.fpr)
      · rw [if_pos hany]
        refine ⟨?_, hT.2⟩
        intro K hK
        rcases mem_replaceFirst _ _ _ K hK with h | ⟨a, ha, hpa, hKa⟩
        · exact hT.1 K h
        · subst hKa
          exact classMem_keyUpdate all a k (hT.1 a ha) hk (beq_iff_eq.mp hpa).symm
      · rw [if_neg hany]
        refine ⟨hT.1, ?_⟩
        intro K hK
        rcases mem_replaceFirst _ _ _ K hK with h | ⟨a, ha, hpa, hKa⟩
        · exact hT.2 K h
        · subst hKa
          exact classMem_keyUpdate all a k (hT.2 a ha) hk (beq_iff_eq.mp hpa).symm
    | none =>
      simp only
      refine ⟨?_, hT.2⟩
      intro K hK
      rcases List.mem_append.mp hK with h | h
      · exact hT.1 K h
      · rw [List.mem_singleton.mp h]
        exact classMem_of_mem all k hk
  · rw [if_neg hchk]
    exact hT

theorem storeInClass_foldl (all : List PKey) (L : List PKey) :
    ∀ (T : KeyStore), StoreInClass all T → (∀ k ∈ L, k ∈ all) →
    StoreInClass all (L.foldl importSyncKey T) := by
  induction L with
  | nil => intro T hT _; exact hT
  | cons x L2 ih =>
    intro T hT hall
    rw [List.foldl_cons]
    exact ih _ (storeInClass_importSyncKey all T x (hall x (List.mem_cons_self _ _)) hT)
      (fun k hk => hall k (List.mem_cons_of_mem _ hk))

/-- First-match growth between two stores: every fingerprint resolved
before is still resolved, to a key that lost nothing. -/
def StoreGrow (T T2 : KeyStore) : Prop :=
  ∀ f K, getKeysForFpr T f = some K →
    ∃ K2, getKeysForFpr T2 f = some K2 ∧ keyLe K K2

theorem storeGrow_refl (T : KeyStore) : StoreGrow T T :=
  fun _ K h => ⟨K, h, keyLe_refl K⟩

theorem storeGrow_trans {T1 T2 T3 : KeyStore} (h1 : StoreGrow T1 T2)
    (h2 : StoreGrow T2 T3) : StoreGrow T1 T3 := by
  intro f K h
  obtain ⟨K2, hK2, hle1⟩ := h1 f K h
  obtain ⟨K3, hK3, hle2⟩ := h2 f K2 hK2
  exact ⟨K3, hK3, keyLe_trans hle1 hle2⟩

theorem storeGrow_importSyncKey (T : KeyStore) (k : PKey) :
    StoreGrow T (importSyncKey T k) := by
  unfold importSyncKey
  by_cases hchk : checkKeyId k T
  · rw [if_pos hchk]
    unfold importPublicKeyCore
    cases hf : getKeysForFpr T k.fpr with
    | some K0 =>
      simp only
      intro f K h
      by_cases hfe : f = k.fpr
      · subst hfe
        have hKK0 : K = K0 := by
          rw [hf] at h
          exact (Option.some.inj h).symm
        subst hKK0
        refine ⟨keyUpdate K k, ?_, keyUpdate_le_left K k⟩
        exact getKeysForFpr_updateFirst_same T k.fpr (fun key => keyUpdate key k) K
          (fun x => rfl) h
      · refine ⟨K, ?_, keyLe_refl K⟩
        rw [getKeysForFpr_updateFirst_ne T k.fpr (fun key => keyUpdate key k) f
          (fun x => rfl) hfe]
        exact h
    | none =>
      simp only
      intro f K h
      by_cases hfe : f = k.fpr
      · subst hfe
        rw [hf] at h
        cases h
      · refine ⟨K, ?_, keyLe_refl K⟩
        rw [getKeysForFpr_push_ne T k f (fun he => hfe he.symm)]
        exact h
  · rw [if_neg hchk]
    exact storeGrow_refl T

theorem storeGrow_foldl (L : List PKey) :
    ∀ (T : KeyStore), StoreGrow T (L.foldl importSyncKey T) := by
  induction L with
  | nil => intro T; exact storeGrow_refl T
  | cons x L2 ih =>
    intro T
    rw [List.foldl_cons]
    exact storeGrow_trans (storeGrow_importSyncKey T x) (ih _)

theorem importSyncKey_establishes (T : KeyStore) (k : PKey)
    (hchk : checkKeyId k T = true) :
    ∃ K, getKeysForFpr (importSyncKey T k) k.fpr = some K ∧ keyLe k K := by
  unfold importSyncKey
  rw [if_pos hchk]
  unfold importPublicKeyCore
  cases hf : getKeysForFpr T k.fpr with
  | some K0 =>
    simp only
    refine ⟨keyUpdate K0 k, ?_, ?_⟩
    · exact getKeysForFpr_updateFirst_same T k.fpr (fun key => keyUpdate key k) K0
        (fun x => rfl) hf
    · have hfe : K0.fpr = k.fpr := by
        have h2 : ((T.publicKeys ++ T.privateKeys).find? (fun x => x.fpr == k.fpr)) =
          some K0 := hf
        have h3 := List.find?_some h2
        exact beq_iff_eq.mp h3
      exact keyUpdate_le_right K0 k hfe.symm
  | none =>
    simp only
    exact ⟨k, getKeysForFpr_push_self T k hf, keyLe_refl k⟩

theorem foldl_establishes (all : List PKey) (hsep : IdsSeparated all) (L : List PKey) :
    ∀ (T : KeyStore), StoreInClass all T → (∀ k2 ∈ L, k2 ∈ all) →
    ∀ k ∈ L, ∃ K, getKeysForFpr (L.foldl importSyncKey T) k.fpr = some K ∧ keyLe k K := by
  induction L with
  | nil =>
    intro T _ _ k hk
    cases hk
  | cons x L2 ih =>
    intro T hT hall k hk
    rw [List.foldl_cons]
    rcases List.mem_cons.mp hk with he | he
    · subst he
      have hchk := checkKeyId_of_separated all hsep k (hall k (List.mem_cons_self _ _)) T hT
      obtain ⟨K1, hK1, hle1⟩ := importSyncKey_establishes T k hchk
      obtain ⟨K2, hK2, hle2⟩ := storeGrow_foldl L2 (importSyncKey T k) k.fpr K1 hK1
      exact ⟨K2, hK2, keyLe_trans hle1 hle2⟩
    · exact ih (importSyncKey T x)
        (storeInClass_importSyncKey all T x (hall x (List.mem_cons_self _ _)) hT)
        (fun k2 hk2 => hall k2 (List.mem_cons_of_mem _ hk2)) k he

theorem find?_filter_keep {α : Type} (p q : α → Bool) (l : List α)
    (h : ∀ x, p x = true → q x = true) :
    (l.filter q).find? p = l.find? p := by
  induction l with
  | nil => rfl
  | cons x xs ih =>
    by_cases hq : q x
    · rw [List.filter_cons_of_pos hq]
      by_cases hp : p x
      · rw [List.find?_cons_of_pos _ hp, List.find?_cons_of_pos _ hp]
      · rw [List.find?_cons_of_neg _ hp, List.find?_cons_of_neg _ hp]
        exact ih
    · rw [List.filter_cons_of_neg hq]
      have hp : ¬ p x = true := fun hpx => hq (h x hpx)
      rw [List.find?_cons_of_neg _ hp]
      exact ih

theorem find?_delList (D : List String) (f : String) (hf : f ∉ D) :
    ∀ (l : List PKey),
      (delList D l).find? (fun x => x.fpr == f) = l.find? (fun x => x.fpr == f) := by
  induction D with
  | nil => intro l; rfl
  | cons d D2 ih =>
    intro l
    rw [show delList (d :: D2) l = delList D2 (l.filter (fun x => !(x.fpr == d))) from rfl]
    rw [ih (fun hmem => hf (List.mem_cons_of_mem _ hmem))]
    apply find?_filter_keep
    intro x hx
    have hxf : x.fpr = f := beq_iff_eq.mp hx
    have hfd : f ≠ d := fun he => hf (he ▸ List.mem_cons_self _ _)
    simp [hxf, hfd]

theorem run2_inserts (all : List PKey) (hsep : IdsSeparated all) (D : List String)
    (A B : List PKey)
    (hAD : ∀ x ∈ A, ∀ f ∈ D, x.fpr ≠ f)
    (hBD : ∀ x ∈ B, ∀ f ∈ D, x.fpr ≠ f)
    (L : List PKey) :
    ∀ (ex : List PKey),
      (∀ e ∈ ex, e.fpr ∈ D) →
      StoreInClass all ⟨A ++ ex, B⟩ →
      (∀ k ∈ L, k ∈ all) →
      (∀ k ∈ L, k.fpr ∉ D →
        ∃ K, getKeysForFpr ⟨A, B⟩ k.fpr = some K ∧
          k.certs ⊆ K.certs ∧ k.subKeyIds ⊆ K.subKeyIds) →
      ∃ ex2, L.foldl importSyncKey ⟨A ++ ex, B⟩ = ⟨A ++ ex2, B⟩ ∧
        ∀ e ∈ ex2, e.fpr ∈ D := by
  induction L with
  | nil =>
    intro ex hexD _ _ _
    exact ⟨ex, rfl, hexD⟩
  | cons k L2 ih =>
    intro ex hexD hU hall hfixed
    have hchk : checkKeyId k ⟨A ++ ex, B⟩ = true :=
      checkKeyId_of_separated all hsep k (hall k (List.mem_cons_self _ _)) _ hU
    rw [List.foldl_cons]
    by_cases hkD : k.fpr ∈ D
    · cases hfU : getKeysForFpr ⟨A ++ ex, B⟩ k.fpr with
      | none =>
        have himp : importSyncKey ⟨A ++ ex, B⟩ k = ⟨A ++ (ex ++ [k]), B⟩ := by
          unfold importSyncKey
          rw [if_pos hchk]
          unfold importPublicKeyCore
          simp only [hfU]
          show (⟨(A ++ ex) ++ [k], B⟩ : KeyStore) = ⟨A ++ (ex ++ [k]), B⟩
          rw [List.append_assoc]
        have hU2 : StoreInClass all ⟨A ++ (ex ++ [k]), B⟩ := by
          have h2 := storeInClass_importSyncKey all ⟨A ++ ex, B⟩ k
            (hall k (List.mem_cons_self _ _)) hU
          rw [himp] at h2
          exact h2
        rw [himp]
        apply ih (ex ++ [k]) ?_ hU2
          (fun k2 hk2 => hall k2 (List.mem_cons_of_mem _ hk2))
          (fun k2 hk2 => hfixed k2 (List.mem_cons_of_mem _ hk2))
        intro e he
        rcases List.mem_append.mp he with h | h
        · exact hexD e h
        · rw [List.mem_singleton.mp h]
          exact hkD
      | some K0 =>
        have hBnone : B.find? (fun x => x.fpr == k.fpr) = none := by
          apply List.find?_eq_none.mpr
          intro x hx
          simp [hBD x hx k.fpr hkD]
        have hpubfind : (A ++ ex).find? (fun x => x.fpr == k.fpr) = some K0 := by
          have h2 : ((A ++ ex).find? (fun x => x.fpr == k.fpr)).or
              (B.find? (fun x => x.fpr == k.fpr)) = some K0 := by
            rw [← List.find?_append]
            exact hfU
          rw [hBnone, Option.or_none] at h2
          exact h2
        have hpK0 := List.find?_some hpubfind
        have hany : (A ++ ex).any (fun x => x.fpr == k.fpr) = true :=
          List.any_eq_true.mpr ⟨K0, List.mem_of_find?_eq_some hpubfind, hpK0⟩
        have himp : importSyncKey ⟨A ++ ex, B⟩ k =
            ⟨A ++ replaceFirst (fun x => x.fpr == k.fpr) (fun key => keyUpdate key k) ex,
             B⟩ := by
          unfold importSyncKey
          rw [if_pos hchk]
          unfold importPublicKeyCore
          simp only [hfU]
          show updateFirstInStore ⟨A ++ ex, B⟩ k.fpr (fun key => keyUpdate key k) = _
          unfold updateFirstInStore
          rw [if_pos hany]
          show (⟨replaceFirst (fun x => x.fpr == k.fpr) (fun key => keyUpdate key k)
            (A ++ ex), B⟩ : KeyStore) = _
          rw [replaceFirst_append_left _ _ A ex
            (fun a ha => by simp [hAD a ha k.fpr hkD])]
        have hU2 : StoreInClass all
            ⟨A ++ replaceFirst (fun x => x.fpr == k.fpr) (fun key => keyUpdate key k) ex,
             B⟩ := by
          have h2 := storeInClass_importSyncKey all ⟨A ++ ex, B⟩ k
            (hall k (List.mem_cons_self _ _)) hU
          rw [himp] at h2
          exact h2
        rw [himp]
        apply ih _ ?_ hU2
          (fun k2 hk2 => hall k2 (List.mem_cons_of_mem _ hk2))
          (fun k2 hk2 => hfixed k2 (List.mem_cons_of_mem _ hk2))
        intro e he
        rcases mem_replaceFirst _ _ ex e he with h | ⟨a, ha, hpa, hea⟩
        · exact hexD e h
        · subst hea
          show (keyUpdate a k).fpr ∈ D
          exact hexD a ha
    · obtain ⟨K, hK, hkc, hks⟩ := hfixed k (List.mem_cons_self _ _) hkD
      have hKU : getKeysForFpr ⟨A ++ ex, B⟩ k.fpr = some K := by
        show ((A ++ ex) ++ B).find? (fun x => x.fpr == k.fpr) = some K
        rw [find?_middle_block _ A ex B
          (fun e he => by simp [show e.fpr ≠ k.fpr from fun hfe => hkD (hfe ▸ hexD e he)])]
        exact hK
      have himp : importSyncKey ⟨A ++ ex, B⟩ k = ⟨A ++ ex, B⟩ := by
        unfold importSyncKey
        rw [if_pos hchk]
        unfold importPublicKeyCore
        simp only [hKU]
        show updateFirstInStore ⟨A ++ ex, B⟩ k.fpr (fun key => keyUpdate key k) = _
        exact updateFirstInStore_id _ k.fpr _ K hKU (keyUpdate_eq_self K k hkc hks)
      rw [himp]
      exact ih ex hexD hU
        (fun k2 hk2 => hall k2 (List.mem_cons_of_mem _ hk2))
        (fun k2 hk2 => hfixed k2 (List.mem_cons_of_mem _ hk2))

theorem applySync_step2 (all : List PKey) (hsep : IdsSeparated all) (L : List PKey)
    (D : List String) (T1 : KeyStore)
    (hT1class : StoreInClass all T1)
    (hallmem : ∀ k ∈ L, k ∈ all)
    (hfix : ∀ k ∈ L, ∃ K, getKeysForFpr T1 k.fpr = some K ∧ keyLe k K) :
    D.foldl deleteOne (L.foldl importSyncKey (D.foldl deleteOne T1)) =
      D.foldl deleteOne T1 := by
  rw [foldl_deleteOne_eq D T1]
  have hAD : ∀ x ∈ delList D T1.publicKeys, ∀ f ∈ D, x.fpr ≠ f :=
    fun x hx => (mem_delList hx).2
  have hBD : ∀ x ∈ delList D T1.privateKeys, ∀ f ∈ D, x.fpr ≠ f :=
    fun x hx => (mem_delList hx).2
  have hS1class : StoreInClass all
      ⟨delList D T1.publicKeys, delList D T1.privateKeys⟩ :=
    storeInClass_subset all T1 _ (fun x hx => (mem_delList hx).1)
      (fun x hx => (mem_delList hx).1) hT1class
  have hfixS1 : ∀ k ∈ L, k.fpr ∉ D →
      ∃ K, getKeysForFpr ⟨delList D T1.publicKeys, delList D T1.privateKeys⟩ k.fpr =
        some K ∧ k.certs ⊆ K.certs ∧ k.subKeyIds ⊆ K.subKeyIds := by
    intro k hk hkD
    obtain ⟨K, hK, hle⟩ := hfix k hk
    refine ⟨K, ?_, hle.2.1, hle.2.2⟩
    show ((delList D T1.publicKeys) ++ (delList D T1.privateKeys)).find?
      (fun x => x.fpr == k.fpr) = some K
    rw [List.find?_append, find?_delList D k.fpr hkD, find?_delList D k.fpr hkD,
        ← List.find?_append]
    exact hK
  obtain ⟨ex2, hU2, hex2D⟩ := run2_inserts all hsep D
    (delList D T1.publicKeys) (delList D T1.privateKeys) hAD hBD L []
    (by intro e he; cases he)
    (by rw [List.append_nil]; exact hS1class)
    hallmem hfixS1
  have hU2a : L.foldl importSyncKey
      ⟨delList D T1.publicKeys, delList D T1.privateKeys⟩ =
      ⟨delList D T1.publicKeys ++ ex2, delList D T1.privateKeys⟩ := by
    rw [show (⟨delList D T1.publicKeys, delList D T1.privateKeys⟩ : KeyStore) =
        ⟨delList D T1.publicKeys ++ [], delList D T1.privateKeys⟩ from by
      rw [List.append_nil]]
    exact hU2
  rw [hU2a, foldl_deleteOne_eq]
  show (⟨delList D (delList D T1.publicKeys ++ ex2),
         delList D (delList D T1.privateKeys)⟩ : KeyStore) = _
  rw [delList_append, delList_eq_self D _ hAD,
      delList_eq_nil D ex2 (fun x hx => ⟨x.fpr, hex2D x hx, rfl⟩),
      delList_eq_self D _ hBD, List.append_nil]

/-- C2 (amended): applying the same decoded inbound sync payload twice
(INSERT entries through the normal public-key import path, DELETE
entries by removing the local key if present) yields a KeyStore state
identical to applying it once, provided the keys in scope are
structurally consistent — distinct fingerprints never share a key id or
subkey id, keys of one fingerprint agree on the key id, and no key id
occurs among its fingerprint's subkey ids; in particular a DELETE for a
fingerprint not present locally causes no error and no state change
(unconditionally).  (Without the consistency condition a payload key
whose key id collides with a subkey id of a key the payload also
deletes is rejected on the first pass and inserted on the second, see
the counterexample.) -/
theorem C2_sync_merge_idempotence (store : KeyStore) (p : SyncMerge)
    (hsep : IdsSeparated (allKeys store p)) :
    applySyncPayload (applySyncPayload store p) p = applySyncPayload store p ∧
    (∀ (T : KeyStore) (f : String), (∀ x ∈ T.publicKeys, x.fpr ≠ f) →
      (∀ x ∈ T.privateKeys, x.fpr ≠ f) → deleteOne T f = T) := by
  constructor
  · have hstoreclass : StoreInClass (allKeys store p) store := by
      constructor
      · intro K hK
        exact classMem_of_mem _ K (List.mem_append_left _ (List.mem_append_left _ hK))
      · intro K hK
        exact classMem_of_mem _ K (List.mem_append_left _ (List.mem_append_right _ hK))
    have hallmem : ∀ k ∈ p.insertKeys, k ∈ allKeys store p :=
      fun k hk => List.mem_append_right _ hk
    unfold applySyncPayload
    exact applySync_step2 (allKeys store p) hsep p.insertKeys p.deleted
      (p.insertKeys.foldl importSyncKey store)
      (storeInClass_foldl _ _ store hstoreclass hallmem)
      hallmem
      (foldl_establishes (allKeys store p) hsep p.insertKeys store hstoreclass hallmem)
  · intro T f hp hv
    unfold deleteOne
    rw [List.filter_eq_self.mpr (fun x hx => by simp [hp x hx]),
        List.filter_eq_self.mpr (fun x hx => by simp [hv x hx])]

/-- Concrete well-formed payload application for the C2 witness. -/
def keyWa : PKey := {fpr := "wa", keyId := "ka2"}

def keyWb : PKey := {fpr := "wb", keyId := "kb2"}

def storeW2 : KeyStore := {publicKeys := [keyWa]}

def payloadW2 : SyncMerge := {insertKeys := [keyWb], deleted := ["wa"]}

/-- Witness for C2: a structurally consistent payload (insert one fresh
key, delete one local key) applies idempotently, and deleting an absent
fingerprint changes nothing. -/
theorem C2_witness :
    applySyncPayload (applySyncPayload storeW2 payloadW2) payloadW2 =
      applySyncPayload storeW2 payloadW2 ∧
    deleteOne storeW2 "zz" = storeW2 := by
  have h := C2_sync_merge_idempotence storeW2 payloadW2 (by unfold IdsSeparated; decide)
  exact ⟨h.1, h.2 storeW2 "zz" (by decide) (by decide)⟩

end Mailvelope
